import Mathlib

/-!
Verification of the `dirhash` library (src/dirhash/__init__.py) against its
natural-language specification.

The development shallowly embeds the Python source: pure functions become Lean
functions, the incremental hash object is modelled by a function
`H : List Nat → String` from the full byte sequence fed to the object to its
hex digest (every hashlib algorithm is such a function of the accumulated
bytes), machine-level file contents are `List Nat` byte lists, and the
filesystem is a map from real paths to contents.  The external `scantree`
collaborator (tree scanning, pruning of empty directories, leaf enumeration)
is not part of the repository; those parts are modelled from the
specification and are marked `Modelled from the spec:` in their doc comments.
-/

set_option maxHeartbeats 1000000

namespace Dirhash

/-- Python `str(bool)` rendering, as used by `"{}:{}".format(name, value)`
when the value is a boolean. -/
def boolStr : Bool → String
  | true => "True"
  | false => "False"

/-- UTF-8 encoding of one character (code point) as its list of byte values. -/
def utf8Bytes (c : Char) : List Nat :=
  let n := c.toNat
  if n < 0x80 then [n]
  else if n < 0x800 then [0xC0 + n / 0x40, 0x80 + n % 0x40]
  else if n < 0x10000 then [0xE0 + n / 0x1000, 0x80 + n / 0x40 % 0x40, 0x80 + n % 0x40]
  else [0xF0 + n / 0x40000, 0x80 + n / 0x1000 % 0x40, 0x80 + n / 0x40 % 0x40, 0x80 + n % 0x40]

/-- Model of Python `s.encode("utf-8")`: the byte values of the string. -/
def utf8Encode (s : String) : List Nat := s.data.flatMap utf8Bytes

/-- Lexicographic comparison of character lists by code point: the order
Python uses to compare `str` values. -/
def charListLe : List Char → List Char → Bool
  | [], _ => true
  | _ :: _, [] => false
  | a :: as, b :: bs =>
      if a < b then true
      else if b < a then false
      else charListLe as bs

/-- Python string comparison `s1 <= s2`: lexicographic by code points. -/
def stringLe (a b : String) : Bool := charListLe a.data b.data

instance stringLeDecidable : DecidableRel (fun a b : String => stringLe a b = true) :=
  fun _ _ => Bool.decEq _ _

/-- Model of Python `sorted` on a list of strings: the unique permutation of
the input that is sorted w.r.t. the total lexicographic code-point order. -/
def sortedStrings (l : List String) : List String :=
  List.insertionSort (fun a b => stringLe a b = true) l

instance : IsTotal String (fun a b => stringLe a b = true) := by
  constructor
  intro x y
  show charListLe x.data y.data = true ∨ charListLe y.data x.data = true
  suffices hgen : ∀ as bs : List Char,
      charListLe as bs = true ∨ charListLe bs as = true from hgen x.data y.data
  intro as
  induction as with
  | nil => intro bs; left; rfl
  | cons a as ih =>
      intro bs
      cases bs with
      | nil => right; rfl
      | cons b bs =>
          simp only [charListLe]
          rcases lt_trichotomy a b with h | h | h
          · left; simp [h]
          · subst h
            simp only [if_neg (lt_irrefl a)]
            exact ih bs
          · right; simp [h]

instance : IsTrans String (fun a b => stringLe a b = true) := by
  constructor
  intro x y z hxy hyz
  show charListLe x.data z.data = true
  have hgen : ∀ as bs cs : List Char,
      charListLe as bs = true → charListLe bs cs = true →
        charListLe as cs = true := by
    intro as
    induction as with
    | nil => intro bs cs _ _; rfl
    | cons a as ih =>
        intro bs cs h₁ h₂
        cases bs with
        | nil => simp [charListLe] at h₁
        | cons b bs =>
            cases cs with
            | nil => simp [charListLe] at h₂
            | cons c cs =>
                simp only [charListLe] at h₁ h₂ ⊢
                rcases lt_trichotomy a b with hab | hab | hab
                · rcases lt_trichotomy b c with hbc | hbc | hbc
                  · have hac : a < c := lt_trans hab hbc
                    simp [hac]
                  · subst hbc; simp [hab]
                  · rw [if_neg (lt_asymm hbc), if_pos hbc] at h₂
                    exact absurd h₂ (by simp)
                · subst hab
                  rw [if_neg (lt_irrefl a), if_neg (lt_irrefl a)] at h₁
                  rcases lt_trichotomy a c with hac | hac | hac
                  · simp [hac]
                  · subst hac
                    rw [if_neg (lt_irrefl a), if_neg (lt_irrefl a)] at h₂ ⊢
                    exact ih bs cs h₁ h₂
                  · rw [if_neg (lt_asymm hac), if_pos hac] at h₂
                    exact absurd h₂ (by simp)
                · rw [if_neg (lt_asymm hab), if_pos hab] at h₁
                  exact absurd h₁ (by simp)
  exact hgen x.data y.data z.data hxy hyz

instance : IsAntisymm String (fun a b => stringLe a b = true) := by
  constructor
  intro x y hxy hyx
  have hgen : ∀ as bs : List Char,
      charListLe as bs = true → charListLe bs as = true → as = bs := by
    intro as
    induction as with
    | nil =>
        intro bs h₁ h₂
        cases bs with
        | nil => rfl
        | cons b bs => simp [charListLe] at h₂
    | cons a as ih =>
        intro bs h₁ h₂
        cases bs with
        | nil => simp [charListLe] at h₁
        | cons b bs =>
            simp only [charListLe] at h₁ h₂
            rcases lt_trichotomy a b with hab | hab | hab
            · rw [if_neg (lt_asymm hab), if_pos hab] at h₂
              exact absurd h₂ (by simp)
            · subst hab
              rw [if_neg (lt_irrefl a), if_neg (lt_irrefl a)] at h₁ h₂
              rw [ih bs h₁ h₂]
            · rw [if_neg (lt_asymm hab), if_pos hab] at h₁
              exact absurd h₁ (by simp)
  exact String.ext (hgen x.data y.data hxy hyx)

/-- A hasher factory is modelled extensionally: the hex digest as a function
of the complete byte sequence fed to the hash object. -/
abbrev HashFn := List Nat → String

/-- Located filesystem entry, as produced by the (external) `scantree`
scanner: `RecursionPath` with its `name`, root-relative posix path,
symlink-resolved real path and kind flags. -/
structure RPath where
  name : String
  relative : String
  real : String
  is_dir : Bool
  is_symlink : Bool
deriving DecidableEq, Repr, Inhabited

/-- The `Protocol.OnCyclicLink` options. -/
inductive OnCyclicLink where
  | raise
  | hash_reference
deriving DecidableEq, Repr

/-- The `dirhash.Protocol` configuration object: the validated set of entry
properties (with its derived membership flags) and the cyclic-link policy. -/
structure Protocol where
  entry_properties : List String
  include_name : Bool
  include_data : Bool
  include_is_link : Bool
  on_cyclic_link : OnCyclicLink
deriving DecidableEq, Repr

/-- `Protocol.EntryProperties.options`. -/
def entryPropertyOptions : List String := ["name", "data", "is_link"]

/-- `Protocol.OnCyclicLink.options`. -/
def onCyclicLinkOptions : List String := ["raise", "hash_reference"]

/-- Error message of the first `ValueError` in `Protocol.__init__`. -/
def errUnsupportedProperties : String := "entry properties not supported"

/-- Error message of the second `ValueError` in `Protocol.__init__`. -/
def errNameOrData : String :=
  "at least one of entry properties name and data must be used"

/-- Error message of the third `ValueError` in `Protocol.__init__`. -/
def errOnCyclicLink : String := "not a valid on_cyclic_link option"

/-- `Protocol.__init__`: validates `entry_properties` (must be a subset of
the supported options and contain `name` or `data`) and `on_cyclic_link`
(must be one of the two option strings), raising `ValueError` otherwise;
on success the derived inclusion flags are bound. -/
def Protocol.init (entry_properties : List String) (on_cyclic_link : String) :
    Except String Protocol :=
  if ¬ entry_properties.all (fun p => entryPropertyOptions.contains p) then
    .error errUnsupportedProperties
  else if ¬ (entry_properties.contains "name" ∨ entry_properties.contains "data") then
    .error errNameOrData
  else if ¬ onCyclicLinkOptions.contains on_cyclic_link then
    .error errOnCyclicLink
  else
    .ok
      { entry_properties := entry_properties
        include_name := entry_properties.contains "name"
        include_data := entry_properties.contains "data"
        include_is_link := entry_properties.contains "is_link"
        on_cyclic_link :=
          if on_cyclic_link = "raise" then .raise else .hash_reference }

/-- `Protocol._entry_property_separator`: a single NUL byte. -/
def entry_property_separator : String := "\x00"

/-- `Protocol._entry_descriptor_separator`: two NUL bytes. -/
def entry_descriptor_separator : String := "\x00\x00"

/-- `Protocol._get_entry_properties`: the selected `(key, value)` pairs for
one child entry, given its path and already-computed hash. -/
def Protocol.get_entry_properties (self : Protocol) (path : RPath)
    (entry_hash : String) : List (String × String) :=
  (if path.is_dir then [("dirhash", entry_hash)]
   else if self.include_data then [("data", entry_hash)]
   else [])
  ++ (if self.include_name then [("name", path.name)] else [])
  ++ (if self.include_is_link then [("is_link", boolStr path.is_symlink)] else [])

/-- `Protocol._get_entry_descriptor`: render each pair as `"key:value"`,
sort, and join with the property separator. -/
def Protocol.get_entry_descriptor (entry_properties : List (String × String)) :
    String :=
  String.intercalate entry_property_separator
    (sortedStrings (entry_properties.map (fun nv => nv.1 ++ ":" ++ nv.2)))

/-- Splitting a character list on the posix separator (Python
`s.split("/")`, at character level). -/
def splitOnSlash : List Char → List (List Char)
  | [] => [[]]
  | c :: cs =>
      match splitOnSlash cs with
      | [] => [[]]
      | cur :: rest => if c = '/' then [] :: cur :: rest else (c :: cur) :: rest

/-- Components of a clean posix relative path (`os.path.relpath` splits on
the separator and drops empty components). -/
def splitComponents (s : String) : List String :=
  ((splitOnSlash s.data).map (fun cs => String.mk cs)).filter (fun c => c ≠ "")

/-- Length of the longest common prefix of two component lists
(`len(commonprefix([start_list, path_list]))`). -/
def commonPrefixLen : List String → List String → Nat
  | a :: as, b :: bs => if a = b then commonPrefixLen as bs + 1 else 0
  | _, _ => 0

/-- Model of posix `os.path.relpath(path, start)` for clean relative
operands: after `abspath` the working-directory components are common to
both sides and cancel in the common prefix, so the result is
`[".."] * (len(start_comps) - common) + path_comps[common:]`, or `"."`
when that list is empty. -/
def relpathPosix (pathComps startComps : List String) : String :=
  let i := commonPrefixLen pathComps startComps
  let rel := List.replicate (startComps.length - i) ".." ++ pathComps.drop i
  if rel = [] then "." else String.intercalate "/" rel

/-- `Protocol._get_cyclic_linked_dir_descriptor`: the relative path from the
link's location to its target's location.  The Python code joins both
root-relative paths with an extra `"."` because `os.path.relpath` does not
accept an empty operand; at the component level that prefix is the identity,
which is reflected here by splitting the raw relative paths. -/
def get_cyclic_linked_dir_descriptor (relative target_relative : String) :
    String :=
  relpathPosix (splitComponents target_relative) (splitComponents relative)

/-- A directory node as seen by `Protocol.get_descriptor`: either a plain
`DirNode` whose children have already been transformed into
`(path, hash)` pairs, or a `CyclicLinkedDir` with its target path. -/
inductive AppliedDirNode where
  | dirNode (path : RPath) (directories files : List (RPath × String))
  | cyclicLinkedDir (path : RPath) (target_path : RPath)
deriving DecidableEq, Repr

/-- Path of an applied directory node. -/
def AppliedDirNode.path : AppliedDirNode → RPath
  | .dirNode p _ _ => p
  | .cyclicLinkedDir p _ => p

/-- Emptiness of a directory node (`DirNode.empty` in scantree).
Modelled from the spec: a `CyclicLinkedDir` is a leaf that carries content
(the reference descriptor), hence never empty. -/
def AppliedDirNode.empty : AppliedDirNode → Bool
  | .dirNode _ ds fs => ds.isEmpty && fs.isEmpty
  | .cyclicLinkedDir _ _ => false

/-- `Protocol.get_descriptor`: dispatches `CyclicLinkedDir` to the reference
descriptor; otherwise builds one descriptor string per child from
`directories + files`, sorts them and joins with the entry descriptor
separator. -/
def Protocol.get_descriptor (self : Protocol) (node : AppliedDirNode) : String :=
  match node with
  | .cyclicLinkedDir path target_path =>
      get_cyclic_linked_dir_descriptor path.relative target_path.relative
  | .dirNode _ directories files =>
      let entries := directories ++ files
      String.intercalate entry_descriptor_separator
        (sortedStrings (entries.map (fun e =>
          Protocol.get_entry_descriptor (self.get_entry_properties e.1 e.2))))

/-- Message of the `ValueError` raised by `dir_apply` on an empty root. -/
def nothingToHashError : String := "Nothing to hash"

/-- Message of scantree's `SymlinkRecursionError`. -/
def symlinkRecursionError : String := "SymlinkRecursionError"

/-- The `dir_apply` closure of `dirhash`: raises on an empty root when empty
directories are excluded, otherwise hashes the UTF-8 encoded descriptor with
a fresh hash object and returns the node's path with the hex digest. -/
def dir_apply (H : HashFn) (proto : Protocol) (empty_dirs : Bool)
    (node : AppliedDirNode) : Except String (RPath × String) :=
  if empty_dirs = false ∧ node.path.relative = "" ∧ node.empty then
    .error nothingToHashError
  else
    .ok (node.path, H (utf8Encode (proto.get_descriptor node)))

/-- Stable deduplication loop of `get_match_patterns`: keep the first
occurrence of each item, tracking the set of seen items. -/
def deduplicateAux : List String → List String → List String
  | [], _ => []
  | x :: xs, seen =>
      if x ∈ seen then deduplicateAux xs seen
      else x :: deduplicateAux xs (x :: seen)

/-- The `deduplicate` helper inside `get_match_patterns`. -/
def deduplicate (items : List String) : List String := deduplicateAux items []

/-- `get_match_patterns`: compose the glob pattern list from the include
list, the negated ignore patterns, the hidden-entry patterns and the
extension patterns, then deduplicate. -/
def get_match_patterns (matchArg ignore ignore_extensions : Option (List String))
    (ignore_hidden : Bool) : List String :=
  let matchList := matchArg.getD ["*"]
  let ignoreList := ignore.getD []
  let extList := ignore_extensions.getD []
  let ignoreList := if ignore_hidden then ignoreList ++ [".*", ".*/"] else ignoreList
  let ignoreList := ignoreList ++ extList.map (fun ext =>
    "*" ++ (if ext.startsWith "." then ext else "." ++ ext))
  let match_spec := matchList ++ ignoreList.map (fun ign => "!" ++ ign)
  deduplicate match_spec

/-- Stable first-occurrence deduplication as worded by the specification:
fold over the list, appending an item only when it has not appeared before. -/
def firstOccurrenceDedup (l : List String) : List String :=
  l.foldl (fun acc x => if x ∈ acc then acc else acc ++ [x]) []

/-- The `build_match_patterns` helper exactly as the specification words it:
the include list (default `["*"]`), followed by each ignore pattern prefixed
as a negation, followed by the negated hidden-entry patterns when requested,
followed by one negated `*.<ext>` pattern per ignored extension (a dot is
prepended to an extension lacking one), the whole list deduplicated
preserving first occurrence order. -/
def build_match_patterns_spec (matchArg ignore ignore_extensions : Option (List String))
    (ignore_hidden : Bool) : List String :=
  let base := matchArg.getD ["*"] ++ (ignore.getD []).map (fun p => "!" ++ p)
  let hidden := if ignore_hidden then ["!.*", "!.*/"] else []
  let exts := (ignore_extensions.getD []).map (fun ext =>
    "!*" ++ (if ext.startsWith "." then ext else "." ++ ext))
  firstOccurrenceDedup (base ++ hidden ++ exts)

/-- Modelled from the spec: the tree produced by the external `scantree`
scanner after glob filtering — a closed sum of file leaves, directory nodes
with separately listed directory and file children, and cyclic-link leaves
tagged with their target path. -/
inductive FsNode where
  | file (path : RPath)
  | dir (path : RPath) (directories files : List FsNode)
  | cyclicLinkedDir (path : RPath) (target_path : RPath)
deriving Repr

mutual

/-- Whether the scanned tree contains a cyclic link (the condition under
which scantree raises `SymlinkRecursionError` when cyclic links are not
allowed).  Modelled from the spec. -/
def FsNode.hasCyclic : FsNode → Bool
  | .file _ => false
  | .cyclicLinkedDir _ _ => true
  | .dir _ ds fs => hasCyclicList ds || hasCyclicList fs

/-- List version of `FsNode.hasCyclic`. -/
def hasCyclicList : List FsNode → Bool
  | [] => false
  | t :: ts => t.hasCyclic || hasCyclicList ts

end

mutual

/-- Modelled from the spec: scantree's empty-directory pruning
(`include_empty=False`): a directory with zero included descendants is
dropped, recursively, while files and cyclic links are always kept. -/
def pruneNode : FsNode → Option FsNode
  | .file p => some (.file p)
  | .cyclicLinkedDir p tp => some (.cyclicLinkedDir p tp)
  | .dir p ds fs =>
      let ds' := pruneList ds
      let fs' := pruneList fs
      if ds'.isEmpty && fs'.isEmpty then none else some (.dir p ds' fs')

/-- List version of `pruneNode`. -/
def pruneList : List FsNode → List FsNode
  | [] => []
  | t :: ts =>
      match pruneNode t with
      | some t' => t' :: pruneList ts
      | none => pruneList ts

end

/-- Modelled from the spec: the tree handed to the composer — the root node
itself is never pruned (there is nothing above it to fold into); its subtrees
are pruned unless empty directories are retained. -/
def pruneRoot (empty_dirs : Bool) (t : FsNode) : FsNode :=
  if empty_dirs then t
  else
    match t with
    | .dir p ds fs => .dir p (pruneList ds) (pruneList fs)
    | other => other

mutual

/-- Paths of all file nodes of a scanned tree (the entries `file_apply` is
applied to, in traversal order). -/
def FsNode.filePaths : FsNode → List RPath
  | .file p => [p]
  | .cyclicLinkedDir _ _ => []
  | .dir _ ds fs => filePathsList ds ++ filePathsList fs

/-- List version of `FsNode.filePaths`. -/
def filePathsList : List FsNode → List RPath
  | [] => []
  | t :: ts => t.filePaths ++ filePathsList ts

end

mutual

/-- Modelled from the spec: the leaves of the scanned tree — files, empty
directories and cyclic links (the entries enumerated by scantree's
`leafpaths`). -/
def FsNode.leaves : FsNode → List RPath
  | .file p => [p]
  | .cyclicLinkedDir p _ => [p]
  | .dir p ds fs =>
      if ds.isEmpty && fs.isEmpty then [p] else leavesList ds ++ leavesList fs

/-- List version of `FsNode.leaves`. -/
def leavesList : List FsNode → List RPath
  | [] => []
  | t :: ts => t.leaves ++ leavesList ts

end

mutual

/-- Paths (of every node) of a scanned tree, root first. -/
def FsNode.allPaths : FsNode → List RPath
  | .file p => [p]
  | .cyclicLinkedDir p _ => [p]
  | .dir p ds fs => p :: (allPathsList ds ++ allPathsList fs)

/-- List version of `FsNode.allPaths`. -/
def allPathsList : List FsNode → List RPath
  | [] => []
  | t :: ts => t.allPaths ++ allPathsList ts

end

/-- One chunked read loop of `_get_filehash`: repeatedly read up to
`chunk_size` bytes until a read returns the empty byte string (which happens
immediately when the file is exhausted, or when `chunk_size` is zero since
`f.read(0)` returns `b""`). -/
def readChunks (chunk_size : Nat) (content : List Nat) : List (List Nat) :=
  if h : content = [] ∨ chunk_size = 0 then []
  else content.take chunk_size :: readChunks chunk_size (content.drop chunk_size)
termination_by content.length
decreasing_by
  push_neg at h
  have hlen : 0 < content.length := List.length_pos.mpr h.1
  have hd : (content.drop chunk_size).length = content.length - chunk_size := by
    simp
  omega

/-- `_get_filehash` without a cache: a fresh hash object is fed every chunk
in order; the digest is therefore the hash of the concatenated chunks. -/
def get_filehash (H : HashFn) (chunk_size : Nat) (content : List Nat) : String :=
  H ((readChunks chunk_size content).foldl (fun acc chunk => acc ++ chunk) [])

/-- The per-call memoization cache of the serial path: a mapping from real
file path to hex digest (most recent binding first). -/
abbrev Cache := List (String × String)

/-- Python `cache.get(filepath, None)`. -/
def cacheLookup (cache : Cache) (filepath : String) : Option String :=
  (cache.find? (fun kv => kv.1 = filepath)).map (fun kv => kv.2)

/-- `_get_filehash` with a cache: attempt a lookup before hashing; on a miss
hash the file's content and record the result. -/
def get_filehash_cached (H : HashFn) (chunk_size : Nat) (fs : String → List Nat)
    (cache : Cache) (filepath : String) : String × Cache :=
  match cacheLookup cache filepath with
  | some h => (h, cache)
  | none =>
      let h := get_filehash H chunk_size (fs filepath)
      (h, (filepath, h) :: cache)

mutual

/-- The post-order reduction `root_node.apply(file_apply, dir_apply)` with an
arbitrary (pure) file transform `fh`: files map to `(path, fh path)`,
directory and cyclic-link nodes go through `dir_apply` on their applied
children. -/
def applyNode (H : HashFn) (proto : Protocol) (empty_dirs : Bool)
    (fh : RPath → String) : FsNode → Except String (RPath × String)
  | .file p => .ok (p, fh p)
  | .cyclicLinkedDir p tp => dir_apply H proto empty_dirs (.cyclicLinkedDir p tp)
  | .dir p ds fs =>
      match applyList H proto empty_dirs fh ds with
      | .error e => .error e
      | .ok dres =>
          match applyList H proto empty_dirs fh fs with
          | .error e => .error e
          | .ok fres => dir_apply H proto empty_dirs (.dirNode p dres fres)

/-- List version of `applyNode`. -/
def applyList (H : HashFn) (proto : Protocol) (empty_dirs : Bool)
    (fh : RPath → String) : List FsNode → Except String (List (RPath × String))
  | [] => .ok []
  | t :: ts =>
      match applyNode H proto empty_dirs fh t with
      | .error e => .error e
      | .ok r =>
          match applyList H proto empty_dirs fh ts with
          | .error e => .error e
          | .ok rs => .ok (r :: rs)

end

mutual

/-- The `jobs=1` reduction: like `applyNode` but files are hashed through
`_get_filehash` with the incremental per-call cache threaded through the
traversal. -/
def serialNode (H : HashFn) (proto : Protocol) (empty_dirs : Bool)
    (chunk_size : Nat) (fs : String → List Nat) :
    FsNode → Cache → Except String ((RPath × String) × Cache)
  | .file p, cache =>
      let hc := get_filehash_cached H chunk_size fs cache p.real
      .ok ((p, hc.1), hc.2)
  | .cyclicLinkedDir p tp, cache =>
      match dir_apply H proto empty_dirs (.cyclicLinkedDir p tp) with
      | .error e => .error e
      | .ok r => .ok (r, cache)
  | .dir p ds fls, cache =>
      match serialList H proto empty_dirs chunk_size fs ds cache with
      | .error e => .error e
      | .ok dres =>
          match serialList H proto empty_dirs chunk_size fs fls dres.2 with
          | .error e => .error e
          | .ok fres =>
              match dir_apply H proto empty_dirs (.dirNode p dres.1 fres.1) with
              | .error e => .error e
              | .ok r => .ok (r, fres.2)

/-- List version of `serialNode`. -/
def serialList (H : HashFn) (proto : Protocol) (empty_dirs : Bool)
    (chunk_size : Nat) (fs : String → List Nat) :
    List FsNode → Cache → Except String (List (RPath × String) × Cache)
  | [], cache => .ok ([], cache)
  | t :: ts, cache =>
      match serialNode H proto empty_dirs chunk_size fs t cache with
      | .error e => .error e
      | .ok r =>
          match serialList H proto empty_dirs chunk_size fs ts r.2 with
          | .error e => .error e
          | .ok rs => .ok (r.1 :: rs.1, rs.2)

end

/-- The `jobs=1` branch of `dirhash`: scantree scans (raising
`SymlinkRecursionError` when a cyclic link is found and the protocol policy
is `raise` — modelled from the spec), prunes empty directories unless they
are retained, and folds the tree with the cached file hasher and
`dir_apply`; the result is the root digest. -/
def dirhash_serial (H : HashFn) (proto : Protocol) (empty_dirs : Bool)
    (chunk_size : Nat) (fs : String → List Nat) (t : FsNode) :
    Except String String :=
  if proto.on_cyclic_link = OnCyclicLink.raise ∧ t.hasCyclic then
    .error symlinkRecursionError
  else
    match serialNode H proto empty_dirs chunk_size fs (pruneRoot empty_dirs t) [] with
    | .error e => .error e
    | .ok r => .ok r.1.2

/-- The `jobs>1` branch of `dirhash`: the same scan collects the set of
distinct real file paths with no hashing (`real_paths`, in the arbitrary
iteration order of a Python set), each unique real path is hashed exactly
once by the worker pool with no cache (`_parmap` with `pool.map` preserves
order — modelled from the spec), the results are zipped into the
`real_path_to_hash` table, and the tree is re-folded with table lookups as
the file transform.  A lookup miss cannot occur (the discovery phase covers
every file of the tree); the impossible miss is modelled by an empty-string
default. -/
def dirhash_parallel (H : HashFn) (proto : Protocol) (empty_dirs : Bool)
    (chunk_size : Nat) (fs : String → List Nat) (real_paths : List String)
    (t : FsNode) : Except String String :=
  if proto.on_cyclic_link = OnCyclicLink.raise ∧ t.hasCyclic then
    .error symlinkRecursionError
  else
    let file_hashes := real_paths.map (fun r => get_filehash H chunk_size (fs r))
    let real_path_to_hash := real_paths.zip file_hashes
    let fh := fun (p : RPath) => (cacheLookup real_path_to_hash p.real).getD ""
    match applyNode H proto empty_dirs fh (pruneRoot empty_dirs t) with
    | .error e => .error e
    | .ok r => .ok r.2

/-- Python `path.is_file()` of a scanned entry. -/
def RPath.is_file (p : RPath) : Bool := !p.is_dir

/-- Posix `os.path.join(relative, ".")` as used by `included_paths`. -/
def joinCurdir (relative : String) : String :=
  if relative = "" then "." else relative ++ "/."

instance rpathRelLeDecidable :
    DecidableRel (fun a b : RPath => stringLe a.relative b.relative = true) :=
  fun _ _ => Bool.decEq _ _

/-- Modelled from the spec: scantree's `leafpaths()` — the leaf entries of
the (pruned) tree sorted by their root-relative path. -/
def leafpathsSorted (t : FsNode) : List RPath :=
  List.insertionSort (fun a b => stringLe a.relative b.relative = true) t.leaves

/-- `included_paths`: scan with the same filtering and cyclic-link policy as
`dirhash`, then render each leaf — a file as its relative path, a directory
(empty directory or cyclic link) as its relative path joined with the `"."`
self marker. -/
def included_paths (proto : Protocol) (empty_dirs : Bool) (t : FsNode) :
    Except String (List String) :=
  if proto.on_cyclic_link = OnCyclicLink.raise ∧ t.hasCyclic then
    .error symlinkRecursionError
  else
    .ok ((leafpathsSorted (pruneRoot empty_dirs t)).map (fun p =>
      if p.is_file then p.relative else joinCurdir p.relative))

/-- The pure file transform of the reference semantics: hash the file's
content, read in chunks, with a fresh hash object. -/
def pureFile (H : HashFn) (chunk_size : Nat) (fs : String → List Nat) :
    RPath → String :=
  fun p => get_filehash H chunk_size (fs p.real)

/-- Correctness invariant of the serial per-call cache: every binding maps a
real path to the hash of that path's content. -/
def CacheGood (H : HashFn) (chunk_size : Nat) (fs : String → List Nat)
    (cache : Cache) : Prop :=
  ∀ kv ∈ cache, kv.2 = get_filehash H chunk_size (fs kv.1)

/-- Cache-free reference form of the serial digest computation (proved equal
to `dirhash_serial` below). -/
def dirhashRef (H : HashFn) (proto : Protocol) (empty_dirs : Bool)
    (chunk_size : Nat) (fs : String → List Nat) (t : FsNode) :
    Except String String :=
  if proto.on_cyclic_link = OnCyclicLink.raise ∧ t.hasCyclic then
    .error symlinkRecursionError
  else
    match applyNode H proto empty_dirs (pureFile H chunk_size fs)
        (pruneRoot empty_dirs t) with
    | .error e => .error e
    | .ok r => .ok r.2

/-- Hash model used in concrete witnesses: a printable rendering of the byte
list (injective on byte lists). -/
def demoH : HashFn := fun bs => String.intercalate "-" (bs.map (fun b => toString b))

/-- Filesystem used in concrete witnesses: content of a file is the UTF-8
encoding of its real path. -/
def demoFs : String → List Nat := fun r => utf8Encode r

/-- The default protocol value (`{name, data}`, policy `raise`). -/
def demoProto : Protocol :=
  { entry_properties := ["name", "data"]
    include_name := true
    include_data := true
    include_is_link := false
    on_cyclic_link := OnCyclicLink.raise }

/-- Witness scenario: the root's path. -/
def demoRootPath : RPath :=
  { name := "root", relative := "", real := "/root", is_dir := true, is_symlink := false }

/-- Witness scenario: one file `a.txt` under the root. -/
def demoFilePath : RPath :=
  { name := "a.txt", relative := "a.txt", real := "/root/a.txt"
    is_dir := false, is_symlink := false }

/-- Witness scenario: a root directory containing one file. -/
def demoTree : FsNode := .dir demoRootPath [] [.file demoFilePath]

/-- Applied child entry used in the C2 witness. -/
def c2pair1 : RPath × String :=
  ({ name := "a", relative := "a", real := "/root/a", is_dir := false,
     is_symlink := false }, "ha")

/-- Applied child entry used in the C2 witness. -/
def c2pair2 : RPath × String :=
  ({ name := "b", relative := "b", real := "/root/b", is_dir := false,
     is_symlink := false }, "hb")

/-- File subtree used in the C2 witness. -/
def c2t1 : FsNode :=
  .file { name := "a", relative := "a", real := "/root/a", is_dir := false,
          is_symlink := false }

/-- File subtree used in the C2 witness. -/
def c2t2 : FsNode :=
  .file { name := "b", relative := "b", real := "/root/b", is_dir := false,
          is_symlink := false }

mutual

/-- Trees equal up to the order in which every directory's children are
presented: same nodes, with each directory's two child lists permuted
recursively. -/
def TreePermNode : FsNode → FsNode → Prop
  | .file p₁, .file p₂ => p₁ = p₂
  | .dir p₁ ds₁ f₁, .dir p₂ ds₂ f₂ =>
      p₁ = p₂ ∧ TreePermList ds₁ ds₂ ∧ TreePermList f₁ f₂
  | .cyclicLinkedDir p₁ tp₁, .cyclicLinkedDir p₂ tp₂ => p₁ = p₂ ∧ tp₁ = tp₂
  | _, _ => False

/-- Child lists equal up to order: the second list is the first with each
subtree re-inserted at some position (permutation as iterated insertion),
the subtrees themselves related recursively. -/
def TreePermList : List FsNode → List FsNode → Prop
  | [], ts₂ => ts₂ = []
  | t :: ts, ts₂ => ∃ pre t' post, ts₂ = pre ++ t' :: post
      ∧ TreePermNode t t' ∧ TreePermList ts (pre ++ post)

end

/-- Path of the nested subdirectory in the C2 witness. -/
def subPath : RPath :=
  { name := "sub", relative := "sub", real := "/root/sub", is_dir := true,
    is_symlink := false }

/-- C2 witness tree: a nested subdirectory with two files in one order. -/
def wtreeA : FsNode := .dir demoRootPath [.dir subPath [c2t1, c2t2] []] []

/-- C2 witness tree: the same nested subdirectory with its children
enumerated in the other order. -/
def wtreeB : FsNode := .dir demoRootPath [.dir subPath [c2t2, c2t1] []] []

mutual

/-- The "rename without changing content or relative structure" relation of
the name-sensitivity property: the two trees (each over its own filesystem
state) have the same shape, the same kind and link flags, equal file
contents, equal directory relative paths, and identical cyclic-link paths;
entry names and real paths are free to differ. -/
def renameEquivNode (fs₁ fs₂ : String → List Nat) : FsNode → FsNode → Bool
  | .file p₁, .file p₂ =>
      (p₁.is_dir == p₂.is_dir) && (p₁.is_symlink == p₂.is_symlink)
        && decide (fs₁ p₁.real = fs₂ p₂.real)
  | .dir p₁ ds₁ f₁, .dir p₂ ds₂ f₂ =>
      (p₁.relative == p₂.relative) && (p₁.is_dir == p₂.is_dir)
        && (p₁.is_symlink == p₂.is_symlink)
        && renameEquivList fs₁ fs₂ ds₁ ds₂ && renameEquivList fs₁ fs₂ f₁ f₂
  | .cyclicLinkedDir p₁ tp₁, .cyclicLinkedDir p₂ tp₂ =>
      decide (p₁ = p₂) && decide (tp₁ = tp₂)
  | _, _ => false

/-- List version of `renameEquivNode`. -/
def renameEquivList (fs₁ fs₂ : String → List Nat) :
    List FsNode → List FsNode → Bool
  | [], [] => true
  | t₁ :: ts₁, t₂ :: ts₂ =>
      renameEquivNode fs₁ fs₂ t₁ t₂ && renameEquivList fs₁ fs₂ ts₁ ts₂
  | _, _ => false

end

/-- Relation between the applied entries of rename-equivalent nodes: equal
hash value and equal kind flags (the name is free). -/
def EntryRel (r₁ r₂ : RPath × String) : Prop :=
  r₁.2 = r₂.2 ∧ r₁.1.is_dir = r₂.1.is_dir ∧ r₁.1.is_symlink = r₂.1.is_symlink

/-- Constant hash object: a legal user-supplied algorithm (it passes the
trial construction of the algorithm resolver) on which every input
collides. -/
def constH : HashFn := fun _ => "00"

/-- Filesystem in which every file has the same content. -/
def constFs : String → List Nat := fun _ => [1, 2, 3]

/-- Protocol with `entry_properties = {data}` (no name sensitivity). -/
def dataProto : Protocol :=
  { entry_properties := ["data"]
    include_name := false
    include_data := true
    include_is_link := false
    on_cyclic_link := OnCyclicLink.raise }

/-- Rename scenario, before: a root with one file `a.txt`. -/
def treeA7 : FsNode :=
  .dir demoRootPath []
    [.file { name := "a.txt", relative := "a.txt", real := "/root/a.txt"
             is_dir := false, is_symlink := false }]

/-- Rename scenario, after: the same root with the file renamed `b.txt`,
content unchanged. -/
def treeB7 : FsNode :=
  .dir demoRootPath []
    [.file { name := "b.txt", relative := "b.txt", real := "/root/b.txt"
             is_dir := false, is_symlink := false }]

mutual

/-- Well-formedness of the scanner's kind flags: file nodes are not
directories, directory and cyclic-link nodes are directories (an invariant
of the external scanner's `RecursionPath`). -/
def kindConsistent : FsNode → Bool
  | .file p => !p.is_dir
  | .cyclicLinkedDir p _ => p.is_dir
  | .dir p ds fs => p.is_dir && kindConsistentList ds && kindConsistentList fs

/-- List version of `kindConsistent`. -/
def kindConsistentList : List FsNode → Bool
  | [] => true
  | t :: ts => kindConsistent t && kindConsistentList ts

end

/-- Listing scenario: an empty directory named `a` under the root. -/
def c9dirA : FsNode :=
  .dir { name := "a", relative := "a", real := "/root/a", is_dir := true,
         is_symlink := false } [] []

/-- Listing scenario: a sibling file named `a b` (the space sorts before the
posix separator). -/
def c9file : FsNode :=
  .file { name := "a b", relative := "a b", real := "/root/a b",
          is_dir := false, is_symlink := false }

/-- Listing scenario root. -/
def c9root : FsNode := .dir demoRootPath [c9dirA] [c9file]

/-- The selected `(key, value)` pairs of one child as worded by the claim: a
directory child always contributes `(dirhash, child_hash)`; a file child
contributes `(data, child_hash)` only when `data` is selected;
`(name, child.name)` when `name` is selected; `(is_link, bool_as_string)`
when `is_link` is selected. -/
def specChildPairs (proto : Protocol) (child : RPath × String) :
    List (String × String) :=
  (if child.1.is_dir then [("dirhash", child.2)] else [])
  ++ (if child.1.is_dir = false ∧ proto.include_data then [("data", child.2)] else [])
  ++ (if proto.include_name then [("name", child.1.name)] else [])
  ++ (if proto.include_is_link then [("is_link", boolStr child.1.is_symlink)] else [])

/-- One child's descriptor as worded by the claim: render each pair as
`"key:value"`, sort lexicographically, join with the single property
separator byte. -/
def specChildDescriptor (proto : Protocol) (child : RPath × String) : String :=
  String.intercalate "\x00"
    (sortedStrings ((specChildPairs proto child).map (fun kv => kv.1 ++ ":" ++ kv.2)))

/-- The directory descriptor as worded by the claim: sort the per-child
descriptor strings lexicographically and join with the distinct longer
separator. -/
def specDirectoryDescriptor (proto : Protocol) (children : List (RPath × String)) :
    String :=
  String.intercalate "\x00\x00"
    (sortedStrings (children.map (specChildDescriptor proto)))

/-- The directory hash as worded by the claim: the descriptor is encoded as
UTF-8 and fed to a fresh hash object whose hex digest is the directory's
hash. -/
def specDirectoryHash (H : HashFn) (proto : Protocol)
    (children : List (RPath × String)) : String :=
  H (utf8Encode (specDirectoryDescriptor proto children))

/-- Constant hash used in the C4 concrete scenario. -/
def cexH : HashFn := fun _ => "H"

/-- Protocol used for the C4 concrete scenario: default properties with the
`hash_reference` policy. -/
def cexProto : Protocol :=
  { entry_properties := ["name", "data"]
    include_name := true
    include_data := true
    include_is_link := false
    on_cyclic_link := OnCyclicLink.hash_reference }

/-- The root's path in the C4 concrete scenario. -/
def cexRootPath : RPath :=
  { name := "root", relative := "", real := "/root", is_dir := true, is_symlink := false }

/-- A symlink `root/link -> root` in the C4 concrete scenario. -/
def cexLink : RPath :=
  { name := "link", relative := "link", real := "/root", is_dir := true, is_symlink := true }

/-! Helper lemmas. -/

/-- Sorting strings is invariant under permutation of the input: both sorts
are sorted and mutually permuted, hence equal. -/
theorem sortedStrings_perm_eq {l₁ l₂ : List String} (h : l₁.Perm l₂) :
    sortedStrings l₁ = sortedStrings l₂ :=
  List.eq_of_perm_of_sorted
    ((List.perm_insertionSort _ l₁).trans (h.trans (List.perm_insertionSort _ l₂).symm))
    (List.sorted_insertionSort _ l₁) (List.sorted_insertionSort _ l₂)

/-- The fold of the specification's first-occurrence deduplication agrees
with the source's seen-set loop whenever the seen set and the accumulated
output contain the same items. -/
theorem deduplicateAux_foldl :
    ∀ (xs acc seen : List String), (∀ y, y ∈ seen ↔ y ∈ acc) →
      xs.foldl (fun a x => if x ∈ a then a else a ++ [x]) acc
        = acc ++ deduplicateAux xs seen := by
  intro xs
  induction xs with
  | nil => intro acc seen _; simp [deduplicateAux]
  | cons x xs ih =>
      intro acc seen h
      simp only [List.foldl_cons, deduplicateAux]
      by_cases hx : x ∈ seen
      · have hx' : x ∈ acc := (h x).mp hx
        simp only [hx, hx', if_pos, if_true]
        exact ih acc seen h
      · have hx' : x ∉ acc := fun c => hx ((h x).mpr c)
        simp only [hx, hx', if_neg, if_false, ite_false]
        rw [ih (acc ++ [x]) (x :: seen) (by
          intro y
          simp only [List.mem_cons, List.mem_append, List.mem_singleton, h y]
          tauto)]
        simp [List.append_assoc]

/-- The two deduplication presentations agree. -/
theorem firstOccurrenceDedup_eq (l : List String) :
    firstOccurrenceDedup l = deduplicate l := by
  unfold firstOccurrenceDedup deduplicate
  rw [deduplicateAux_foldl l [] [] (by intro y; simp)]
  simp

/-- The per-child pair lists of the source and of the claim coincide. -/
theorem get_entry_properties_eq_specChildPairs (proto : Protocol) (p : RPath)
    (h : String) : proto.get_entry_properties p h = specChildPairs proto (p, h) := by
  unfold Protocol.get_entry_properties specChildPairs
  by_cases hd : p.is_dir <;> simp [hd]

/-- C1.  For every directory node and every protocol configuration, the
directory descriptor is built exactly as the claim words it — per-child
selected pairs rendered `"key:value"`, sorted, joined by the one-byte
property separator; per-child descriptors sorted and joined by the distinct
two-byte separator — and the directory's hash is the hex digest of a fresh
hash object fed the UTF-8 encoded descriptor.  (The empty-root error branch
of `dir_apply` is the subject of C5; it is disabled here by retaining empty
directories.) -/
theorem claim_C1 (H : HashFn) (proto : Protocol) (p : RPath)
    (directories files : List (RPath × String)) :
    proto.get_descriptor (.dirNode p directories files)
        = specDirectoryDescriptor proto (directories ++ files)
    ∧ dir_apply H proto true (.dirNode p directories files)
        = .ok (p, specDirectoryHash H proto (directories ++ files)) := by
  have hentry : ∀ e : RPath × String,
      Protocol.get_entry_descriptor (proto.get_entry_properties e.1 e.2)
        = specChildDescriptor proto e := by
    rintro ⟨q, hsh⟩
    unfold Protocol.get_entry_descriptor specChildDescriptor
    rw [get_entry_properties_eq_specChildPairs]
    rfl
  have hdesc : proto.get_descriptor (.dirNode p directories files)
      = specDirectoryDescriptor proto (directories ++ files) := by
    show entry_descriptor_separator.intercalate
        (sortedStrings (List.map (fun e =>
          Protocol.get_entry_descriptor (proto.get_entry_properties e.1 e.2))
          (directories ++ files)))
      = specDirectoryDescriptor proto (directories ++ files)
    unfold specDirectoryDescriptor
    rw [List.map_congr_left (fun e _ => hentry e)]
    rfl
  refine ⟨hdesc, ?_⟩
  unfold dir_apply
  simp [specDirectoryHash, hdesc, AppliedDirNode.path, AppliedDirNode.empty]

/-- C4 (amended).  Under the `hash_reference` policy the descriptor of a
cyclic-link node is the relative path from the link's location to its
target's location by posix relative-path arithmetic over the two
root-relative paths (the `"."` placeholder of the source being the identity
at component level); `dir_apply` then hashes that descriptor like any
directory descriptor — UTF-8 encoded, fed to a fresh hash object — and the
entry contributes the resulting digest to its parent under the `dirhash`
key, never under the `data` key. -/
theorem claim_C4 (H : HashFn) (proto : Protocol) (ed : Bool) (p tp : RPath)
    (h : String) (hdir : p.is_dir = true)
    (hpol : proto.on_cyclic_link = OnCyclicLink.hash_reference) :
    proto.get_descriptor (.cyclicLinkedDir p tp)
        = relpathPosix (splitComponents tp.relative) (splitComponents p.relative)
    ∧ dir_apply H proto ed (.cyclicLinkedDir p tp)
        = .ok (p, H (utf8Encode
            (relpathPosix (splitComponents tp.relative) (splitComponents p.relative))))
    ∧ ("dirhash", h) ∈ proto.get_entry_properties p h
    ∧ ∀ v, ("data", v) ∉ proto.get_entry_properties p h := by
  refine ⟨rfl, ?_, ?_, ?_⟩
  · unfold dir_apply
    simp [AppliedDirNode.empty, AppliedDirNode.path, Protocol.get_descriptor,
      get_cyclic_linked_dir_descriptor]
  · simp [Protocol.get_entry_properties, hdir]
  · intro v hv
    unfold Protocol.get_entry_properties at hv
    rw [hdir] at hv
    simp only [if_true] at hv
    rcases List.mem_append.mp hv with hv | hv
    · rcases List.mem_append.mp hv with hv | hv
      · simp at hv
      · split at hv
        · simp at hv
        · simp at hv
    · split at hv
      · simp at hv
      · simp at hv

/-- C4, counterexample to the claim as stated.  In the concrete scenario of
a root containing one cyclic link back to the root, the link's descriptor is
the literal relative path `".."`, but the entry's contribution to the
parent's descriptor is the link's hex digest (here `"H"`), under the
`dirhash` key — not the literal string: the parent's descriptor differs from
the one the claim predicts. -/
theorem claim_C4_counterexample :
    dir_apply cexH cexProto false (.cyclicLinkedDir cexLink cexRootPath)
        = .ok (cexLink, "H")
    ∧ cexProto.get_descriptor (.cyclicLinkedDir cexLink cexRootPath) = ".."
    ∧ cexProto.get_descriptor (.dirNode cexRootPath [(cexLink, "H")] [])
        = "dirhash:H" ++ "\x00" ++ "name:link"
    ∧ ("dirhash:H" ++ "\x00" ++ "name:link") ≠ ("dirhash:.." ++ "\x00" ++ "name:link") := by
  refine ⟨rfl, by decide, by decide, by decide⟩

/-- C4, witness for the amended theorem at the concrete cyclic scenario. -/
theorem claim_C4_witness :
    cexProto.get_descriptor (.cyclicLinkedDir cexLink cexRootPath)
        = relpathPosix (splitComponents cexRootPath.relative)
            (splitComponents cexLink.relative)
    ∧ dir_apply cexH cexProto false (.cyclicLinkedDir cexLink cexRootPath)
        = .ok (cexLink, cexH (utf8Encode
            (relpathPosix (splitComponents cexRootPath.relative)
              (splitComponents cexLink.relative))))
    ∧ ("dirhash", "H") ∈ cexProto.get_entry_properties cexLink "H"
    ∧ ∀ v, ("data", v) ∉ cexProto.get_entry_properties cexLink "H" :=
  claim_C4 cexH cexProto false cexLink cexRootPath "H" (by decide) rfl

/-- C6.  Protocol construction succeeds exactly when `entry_properties`
contains `name` or `data`, every listed property is one of the supported
options and the cyclic-link policy string is one of the two options; every
failure is one of the three `ValueError`s raised eagerly inside
`Protocol.__init__`, before any traversal. -/
theorem claim_C6 (eps : List String) (link : String) :
    ((∃ P, Protocol.init eps link = .ok P) ↔
      (("name" ∈ eps ∨ "data" ∈ eps)
        ∧ (∀ p ∈ eps, p ∈ entryPropertyOptions)
        ∧ link ∈ onCyclicLinkOptions))
    ∧ ∀ e, Protocol.init eps link = .error e →
        e ∈ [errUnsupportedProperties, errNameOrData, errOnCyclicLink] := by
  unfold Protocol.init
  by_cases hA : eps.all (fun p => entryPropertyOptions.contains p) = true
  · rw [if_neg (not_not_intro hA)]
    by_cases hB : eps.contains "name" = true ∨ eps.contains "data" = true
    · rw [if_neg (not_not_intro hB)]
      by_cases hC : onCyclicLinkOptions.contains link = true
      · rw [if_neg (not_not_intro hC)]
        refine ⟨⟨fun _ => ?_, fun _ => ⟨_, rfl⟩⟩, fun e he => ?_⟩
        · refine ⟨?_, ?_, ?_⟩
          · simpa [List.contains] using hB
          · intro p hp
            have := (List.all_eq_true.mp hA) p hp
            simpa [List.contains] using this
          · simpa [List.contains] using hC
        · simp at he
      · rw [if_pos hC]
        refine ⟨⟨fun hok => ?_, fun hgood => ?_⟩, fun e he => ?_⟩
        · obtain ⟨P, hP⟩ := hok
          simp at hP
        · exact absurd (by simpa [List.contains] using hgood.2.2) hC
        · rw [show errOnCyclicLink = e by simpa using he]
          simp
    · rw [if_pos hB]
      refine ⟨⟨fun hok => ?_, fun hgood => ?_⟩, fun e he => ?_⟩
      · obtain ⟨P, hP⟩ := hok
        simp at hP
      · exact absurd (by simpa [List.contains] using hgood.1) hB
      · rw [show errNameOrData = e by simpa using he]
        simp
  · rw [if_pos hA]
    refine ⟨⟨fun hok => ?_, fun hgood => ?_⟩, fun e he => ?_⟩
    · obtain ⟨P, hP⟩ := hok
      simp at hP
    · exfalso
      apply hA
      rw [List.all_eq_true]
      intro p hp
      simpa [List.contains] using hgood.2.1 p hp
    · rw [show errUnsupportedProperties = e by simpa using he]
      simp

/-- C8.  `get_match_patterns` returns the include list (default `["*"]`)
followed by the negated ignore patterns, the negated hidden-entry patterns
when requested, and one negated `*.<ext>` pattern per ignored extension,
deduplicated preserving first occurrence — exactly the specification's
`build_match_patterns`; the definition is pure (no I/O). -/
theorem claim_C8 (matchArg ignore ignore_extensions : Option (List String))
    (ignore_hidden : Bool) :
    get_match_patterns matchArg ignore ignore_extensions ignore_hidden
      = build_match_patterns_spec matchArg ignore ignore_extensions ignore_hidden := by
  unfold get_match_patterns build_match_patterns_spec
  rw [firstOccurrenceDedup_eq]
  have hext : ∀ ext : String,
      "!" ++ ("*" ++ (if ext.startsWith "." then ext else "." ++ ext))
        = "!*" ++ (if ext.startsWith "." then ext else "." ++ ext) := by
    intro ext
    rw [← String.append_assoc]
    rfl
  cases ignore_hidden <;>
    simp [List.map_append, List.map_map, Function.comp_def, hext, List.append_assoc]

/-- A cache lookup in a good cache returns the hash of the looked-up path's
content. -/
theorem cacheLookup_good {H : HashFn} {c : Nat} {fs : String → List Nat}
    {cache : Cache} (hg : CacheGood H c fs cache) {k : String} {v : String}
    (hl : cacheLookup cache k = some v) : v = get_filehash H c (fs k) := by
  unfold cacheLookup at hl
  cases hfind : cache.find? (fun kv => kv.1 = k) with
  | none => rw [hfind] at hl; simp at hl
  | some kv =>
      rw [hfind] at hl
      simp at hl
      have hmem := List.mem_of_find?_eq_some hfind
      have hpred := List.find?_some hfind
      simp at hpred
      rw [← hl, hg kv hmem, hpred]

mutual

/-- The cached serial reduction computes the same result as the cache-free
reduction with the pure file transform, and preserves cache correctness. -/
theorem serialNode_eq_applyNode (H : HashFn) (proto : Protocol) (ed : Bool)
    (c : Nat) (fs : String → List Nat) :
    ∀ (t : FsNode) (cache : Cache), CacheGood H c fs cache →
      ∃ cache', CacheGood H c fs cache' ∧
        serialNode H proto ed c fs t cache
          = (applyNode H proto ed (pureFile H c fs) t).map (fun r => (r, cache'))
  | .file p, cache, hg => by
      unfold serialNode get_filehash_cached
      cases hl : cacheLookup cache p.real with
      | some h =>
          refine ⟨cache, hg, ?_⟩
          simp [applyNode, Except.map, pureFile, cacheLookup_good hg hl]
      | none =>
          refine ⟨(p.real, get_filehash H c (fs p.real)) :: cache, ?_, ?_⟩
          · intro kv hkv
            rcases List.mem_cons.mp hkv with rfl | hkv
            · rfl
            · exact hg kv hkv
          · simp [applyNode, Except.map, pureFile]
  | .cyclicLinkedDir p tp, cache, hg => by
      refine ⟨cache, hg, ?_⟩
      unfold serialNode
      cases hd : dir_apply H proto ed (.cyclicLinkedDir p tp) with
      | error e => simp [applyNode, hd, Except.map]
      | ok r => simp [applyNode, hd, Except.map]
  | .dir p ds fls, cache, hg => by
      obtain ⟨c₁, hg₁, e₁⟩ := serialList_eq_applyList H proto ed c fs ds cache hg
      cases hds : applyList H proto ed (pureFile H c fs) ds with
      | error e =>
          rw [hds] at e₁
          simp only [Except.map] at e₁
          refine ⟨c₁, hg₁, ?_⟩
          unfold serialNode
          rw [e₁]
          simp [applyNode, hds, Except.map]
      | ok dres =>
          rw [hds] at e₁
          simp only [Except.map] at e₁
          obtain ⟨c₂, hg₂, e₂⟩ := serialList_eq_applyList H proto ed c fs fls c₁ hg₁
          cases hfs : applyList H proto ed (pureFile H c fs) fls with
          | error e =>
              rw [hfs] at e₂
              simp only [Except.map] at e₂
              refine ⟨c₂, hg₂, ?_⟩
              unfold serialNode
              rw [e₁]
              simp only []
              rw [e₂]
              simp [applyNode, hds, hfs, Except.map]
          | ok fres =>
              rw [hfs] at e₂
              simp only [Except.map] at e₂
              refine ⟨c₂, hg₂, ?_⟩
              unfold serialNode
              rw [e₁]
              simp only []
              rw [e₂]
              simp only [applyNode, hds, hfs, Except.map]
              cases hda : dir_apply H proto ed (.dirNode p dres fres) with
              | error e => simp [hda, Except.map]
              | ok r => simp [hda, Except.map]

/-- List version of `serialNode_eq_applyNode`. -/
theorem serialList_eq_applyList (H : HashFn) (proto : Protocol) (ed : Bool)
    (c : Nat) (fs : String → List Nat) :
    ∀ (ts : List FsNode) (cache : Cache), CacheGood H c fs cache →
      ∃ cache', CacheGood H c fs cache' ∧
        serialList H proto ed c fs ts cache
          = (applyList H proto ed (pureFile H c fs) ts).map (fun rs => (rs, cache'))
  | [], cache, hg => ⟨cache, hg, by simp [serialList, applyList, Except.map]⟩
  | t :: ts, cache, hg => by
      obtain ⟨c₁, hg₁, e₁⟩ := serialNode_eq_applyNode H proto ed c fs t cache hg
      cases ht : applyNode H proto ed (pureFile H c fs) t with
      | error e =>
          rw [ht] at e₁
          simp only [Except.map] at e₁
          refine ⟨c₁, hg₁, ?_⟩
          unfold serialList
          rw [e₁]
          simp [applyList, ht, Except.map]
      | ok r =>
          rw [ht] at e₁
          simp only [Except.map] at e₁
          obtain ⟨c₂, hg₂, e₂⟩ := serialList_eq_applyList H proto ed c fs ts c₁ hg₁
          cases hts : applyList H proto ed (pureFile H c fs) ts with
          | error e =>
              rw [hts] at e₂
              simp only [Except.map] at e₂
              refine ⟨c₂, hg₂, ?_⟩
              unfold serialList
              rw [e₁]
              simp only []
              rw [e₂]
              simp [applyList, ht, hts, Except.map]
          | ok rs =>
              rw [hts] at e₂
              simp only [Except.map] at e₂
              refine ⟨c₂, hg₂, ?_⟩
              unfold serialList
              rw [e₁]
              simp only []
              rw [e₂]
              simp [applyList, ht, hts, Except.map]

end

/-- The serial path equals the cache-free reference computation. -/
theorem dirhash_serial_eq_ref (H : HashFn) (proto : Protocol) (ed : Bool)
    (c : Nat) (fs : String → List Nat) (t : FsNode) :
    dirhash_serial H proto ed c fs t = dirhashRef H proto ed c fs t := by
  unfold dirhash_serial dirhashRef
  by_cases hcy : proto.on_cyclic_link = OnCyclicLink.raise ∧ t.hasCyclic = true
  · rw [if_pos hcy, if_pos hcy]
  · rw [if_neg hcy, if_neg hcy]
    obtain ⟨c', _, e'⟩ := serialNode_eq_applyNode H proto ed c fs
      (pruneRoot ed t) [] (by intro kv hkv; simp at hkv)
    rw [e']
    cases applyNode H proto ed (pureFile H c fs) (pruneRoot ed t) with
    | error e => simp [Except.map]
    | ok r => simp [Except.map]

/-- Folding list concatenation from an accumulator is the accumulator
followed by the flattened list. -/
theorem foldl_append_flatten : ∀ (ls : List (List Nat)) (acc : List Nat),
    ls.foldl (fun a b => a ++ b) acc = acc ++ ls.flatten := by
  intro ls
  induction ls with
  | nil => intro acc; simp
  | cons l ls ih => intro acc; simp [List.foldl_cons, ih, List.append_assoc]

/-- For a positive chunk size, the chunks of a byte list concatenate back to
the byte list. -/
theorem readChunks_flatten (c : Nat) (hc : c ≠ 0) (content : List Nat) :
    (readChunks c content).flatten = content := by
  rw [readChunks]
  split
  · rename_i h
    rcases h with h | h
    · simp [h]
    · exact absurd h hc
  · rename_i h
    simp only [List.flatten_cons]
    rw [readChunks_flatten c hc (content.drop c)]
    exact List.take_append_drop c content
termination_by content.length
decreasing_by
  rename_i h
  push_neg at h
  have hpos : 0 < content.length := List.length_pos.mpr h.1
  have hd : (content.drop c).length = content.length - c := by simp
  omega

/-- For a positive chunk size, the chunked incremental file hash is the hash
of the file's full content. -/
theorem get_filehash_eq_hash (H : HashFn) (c : Nat) (content : List Nat)
    (hc : c ≠ 0) : get_filehash H c content = H content := by
  unfold get_filehash
  rw [foldl_append_flatten, readChunks_flatten c hc]
  simp

/-- C10.  Hashing a file by chunked incremental reads yields a digest that
depends only on the byte content: any two positive chunk sizes give the same
digest, and consequently the digest computed by the serial `dirhash` path is
independent of the `chunk_size` argument. -/
theorem claim_C10 (H : HashFn) (proto : Protocol) (ed : Bool)
    (fs : String → List Nat) (c₁ c₂ : Nat) (h₁ : 0 < c₁) (h₂ : 0 < c₂) :
    (∀ content, get_filehash H c₁ content = get_filehash H c₂ content)
    ∧ ∀ t, dirhash_serial H proto ed c₁ fs t
        = dirhash_serial H proto ed c₂ fs t := by
  have hgf : ∀ content, get_filehash H c₁ content = get_filehash H c₂ content := by
    intro content
    rw [get_filehash_eq_hash H c₁ content (Nat.pos_iff_ne_zero.mp h₁),
      get_filehash_eq_hash H c₂ content (Nat.pos_iff_ne_zero.mp h₂)]
  refine ⟨hgf, fun t => ?_⟩
  rw [dirhash_serial_eq_ref, dirhash_serial_eq_ref]
  unfold dirhashRef
  rw [show pureFile H c₁ fs = pureFile H c₂ fs from
    funext (fun p => hgf (fs p.real))]

/-- C10, witness at chunk sizes 1 and 2 on a concrete byte list and tree. -/
theorem claim_C10_witness :
    (0 < 1 ∧ 0 < 2)
    ∧ get_filehash demoH 1 [7, 8, 9] = get_filehash demoH 2 [7, 8, 9]
    ∧ dirhash_serial demoH demoProto false 1 demoFs demoTree
        = dirhash_serial demoH demoProto false 2 demoFs demoTree :=
  ⟨⟨by decide, by decide⟩,
   (claim_C10 demoH demoProto false demoFs 1 2 (by decide) (by decide)).1 [7, 8, 9],
   (claim_C10 demoH demoProto false demoFs 1 2 (by decide) (by decide)).2 demoTree⟩

/-- Looking up a cache binding at the head or deeper. -/
theorem cacheLookup_cons (kv : String × String) (cache : Cache) (k : String) :
    cacheLookup (kv :: cache) k
      = if kv.1 = k then some kv.2 else cacheLookup cache k := by
  unfold cacheLookup
  by_cases h : kv.1 = k
  · simp [List.find?, h]
  · simp [List.find?, h]

/-- A lookup in the table zipping paths with their mapped hashes returns the
mapped hash, for any listed path. -/
theorem cacheLookup_zip_map (g : String → String) :
    ∀ (rs : List String) (r : String), r ∈ rs →
      cacheLookup (rs.zip (rs.map g)) r = some (g r) := by
  intro rs
  induction rs with
  | nil => intro r hr; simp at hr
  | cons a rs ih =>
      intro r hr
      have hz : ((a :: rs).zip ((a :: rs).map g))
          = (a, g a) :: rs.zip (rs.map g) := rfl
      rw [hz, cacheLookup_cons]
      by_cases hra : a = r
      · subst hra; simp
      · rw [if_neg (by simpa using hra)]
        rcases List.mem_cons.mp hr with heq | hmem
        · exact absurd heq.symm hra
        · exact ih r hmem

mutual

/-- The reduction reads files only through the file transform at the tree's
file paths: transforms agreeing there give identical results. -/
theorem applyNode_congr (H : HashFn) (proto : Protocol) (ed : Bool)
    (fh₁ fh₂ : RPath → String) :
    ∀ t : FsNode, (∀ p ∈ t.filePaths, fh₁ p = fh₂ p) →
      applyNode H proto ed fh₁ t = applyNode H proto ed fh₂ t
  | .file p, hag => by
      have hp : fh₁ p = fh₂ p := hag p (by simp [FsNode.filePaths])
      simp [applyNode, hp]
  | .cyclicLinkedDir p tp, _ => rfl
  | .dir p ds fls, hag => by
      have hd : applyList H proto ed fh₁ ds = applyList H proto ed fh₂ ds :=
        applyList_congr H proto ed fh₁ fh₂ ds (fun q hq => hag q (by
          simp only [FsNode.filePaths]
          exact List.mem_append_left _ hq))
      have hf : applyList H proto ed fh₁ fls = applyList H proto ed fh₂ fls :=
        applyList_congr H proto ed fh₁ fh₂ fls (fun q hq => hag q (by
          simp only [FsNode.filePaths]
          exact List.mem_append_right _ hq))
      simp [applyNode, hd, hf]

/-- List version of `applyNode_congr`. -/
theorem applyList_congr (H : HashFn) (proto : Protocol) (ed : Bool)
    (fh₁ fh₂ : RPath → String) :
    ∀ ts : List FsNode, (∀ p ∈ filePathsList ts, fh₁ p = fh₂ p) →
      applyList H proto ed fh₁ ts = applyList H proto ed fh₂ ts
  | [], _ => rfl
  | t :: ts, hag => by
      have h1 : applyNode H proto ed fh₁ t = applyNode H proto ed fh₂ t :=
        applyNode_congr H proto ed fh₁ fh₂ t (fun q hq => hag q (by
          simp only [filePathsList]
          exact List.mem_append_left _ hq))
      have h2 : applyList H proto ed fh₁ ts = applyList H proto ed fh₂ ts :=
        applyList_congr H proto ed fh₁ fh₂ ts (fun q hq => hag q (by
          simp only [filePathsList]
          exact List.mem_append_right _ hq))
      simp [applyList, h1, h2]

end

/-- C3.  For every tree and fixed configuration, the parallel path — collect
the distinct real file paths with no hashing (any enumeration of a set
covering the tree's files), hash each one once with no cache, compose with
table lookups — returns exactly what the serial path (incremental per-call
cache) returns, errors included. -/
theorem claim_C3 (H : HashFn) (proto : Protocol) (ed : Bool) (c : Nat)
    (fs : String → List Nat) (t : FsNode) (real_paths : List String)
    (hnd : real_paths.Nodup)
    (hcover : ∀ p ∈ (pruneRoot ed t).filePaths, p.real ∈ real_paths) :
    dirhash_parallel H proto ed c fs real_paths t
      = dirhash_serial H proto ed c fs t := by
  rw [dirhash_serial_eq_ref]
  unfold dirhash_parallel dirhashRef
  by_cases hcy : proto.on_cyclic_link = OnCyclicLink.raise ∧ t.hasCyclic = true
  · rw [if_pos hcy, if_pos hcy]
  · rw [if_neg hcy, if_neg hcy]
    have hfh : applyNode H proto ed
        (fun p => (cacheLookup
          (real_paths.zip (real_paths.map (fun r => get_filehash H c (fs r))))
          p.real).getD "") (pruneRoot ed t)
        = applyNode H proto ed (pureFile H c fs) (pruneRoot ed t) :=
      applyNode_congr H proto ed _ _ (pruneRoot ed t) (fun p hp => by
        rw [cacheLookup_zip_map _ real_paths p.real (hcover p hp)]
        rfl)
    dsimp only
    rw [hfh]

/-- C3, witness on the one-file tree with the singleton real-path list. -/
theorem claim_C3_witness :
    (["/root/a.txt"] : List String).Nodup
    ∧ (∀ p ∈ (pruneRoot false demoTree).filePaths, p.real ∈ ["/root/a.txt"])
    ∧ dirhash_parallel demoH demoProto false 4 demoFs ["/root/a.txt"] demoTree
        = dirhash_serial demoH demoProto false 4 demoFs demoTree :=
  ⟨by decide, by decide,
   claim_C3 demoH demoProto false 4 demoFs demoTree ["/root/a.txt"]
     (by decide) (by decide)⟩

mutual

/-- A subtree containing a cyclic link survives pruning. -/
theorem pruneNode_of_cyclic : ∀ t : FsNode, t.hasCyclic = true →
    ∃ t', pruneNode t = some t'
  | .file p, h => by simp [FsNode.hasCyclic] at h
  | .cyclicLinkedDir p tp, _ => ⟨_, rfl⟩
  | .dir p ds fls, h => by
      simp only [FsNode.hasCyclic, Bool.or_eq_true] at h
      have hne : pruneList ds ≠ [] ∨ pruneList fls ≠ [] := by
        rcases h with h | h
        · exact Or.inl (pruneList_of_cyclic ds h)
        · exact Or.inr (pruneList_of_cyclic fls h)
      refine ⟨FsNode.dir p (pruneList ds) (pruneList fls), ?_⟩
      unfold pruneNode
      rw [if_neg]
      intro hb
      simp only [Bool.and_eq_true] at hb
      rcases hne with hne | hne
      · exact hne (List.isEmpty_iff.mp hb.1)
      · exact hne (List.isEmpty_iff.mp hb.2)

/-- A list of subtrees one of which contains a cyclic link does not prune to
the empty list. -/
theorem pruneList_of_cyclic : ∀ ts : List FsNode, hasCyclicList ts = true →
    pruneList ts ≠ []
  | [], h => by simp [hasCyclicList] at h
  | t :: ts, h => by
      simp only [hasCyclicList, Bool.or_eq_true] at h
      cases hp : pruneNode t with
      | some t' => simp [pruneList, hp]
      | none =>
          rcases h with h | h
          · obtain ⟨t', ht'⟩ := pruneNode_of_cyclic t h
            rw [ht'] at hp
            cases hp
          · have := pruneList_of_cyclic ts h
            simpa [pruneList, hp] using this

end

mutual

/-- Pruning only removes nodes: every path of the pruned subtree is a path
of the original one. -/
theorem pruneNode_allPaths : ∀ (t t' : FsNode), pruneNode t = some t' →
    ∀ q ∈ t'.allPaths, q ∈ t.allPaths
  | .file p, t', h => by
      injection h with h
      subst h
      intro q hq
      exact hq
  | .cyclicLinkedDir p tp, t', h => by
      injection h with h
      subst h
      intro q hq
      exact hq
  | .dir p ds fls, t', h => by
      unfold pruneNode at h
      by_cases hb : ((pruneList ds).isEmpty && (pruneList fls).isEmpty) = true
      · rw [if_pos hb] at h
        cases h
      · rw [if_neg hb] at h
        injection h with h
        subst h
        intro q hq
        simp only [FsNode.allPaths] at hq ⊢
        rcases List.mem_cons.mp hq with rfl | hq
        · exact List.mem_cons_self _ _
        · rcases List.mem_append.mp hq with hq | hq
          · exact List.mem_cons_of_mem _
              (List.mem_append_left _ (pruneList_allPaths ds q hq))
          · exact List.mem_cons_of_mem _
              (List.mem_append_right _ (pruneList_allPaths fls q hq))

/-- List version of `pruneNode_allPaths`. -/
theorem pruneList_allPaths : ∀ (ts : List FsNode),
    ∀ q ∈ allPathsList (pruneList ts), q ∈ allPathsList ts
  | [], q, hq => by simpa [pruneList, allPathsList] using hq
  | t :: ts, q, hq => by
      simp only [allPathsList]
      cases hp : pruneNode t with
      | none =>
          simp only [pruneList, hp] at hq
          exact List.mem_append_right _ (pruneList_allPaths ts q hq)
      | some t' =>
          simp only [pruneList, hp, allPathsList] at hq
          rcases List.mem_append.mp hq with hq | hq
          · exact List.mem_append_left _ (pruneNode_allPaths t t' hp q hq)
          · exact List.mem_append_right _ (pruneList_allPaths ts q hq)

end

mutual

/-- With empty directories excluded, the serial reduction can only fail at a
node whose relative path is the empty (root) path: on a subtree all of whose
paths are non-root it always succeeds. -/
theorem serialNode_ok (H : HashFn) (proto : Protocol) (c : Nat)
    (fs : String → List Nat) :
    ∀ (t : FsNode), (∀ q ∈ t.allPaths, q.relative ≠ "") → ∀ cache : Cache,
      ∃ r cache', serialNode H proto false c fs t cache = .ok (r, cache')
  | .file p, _, cache => ⟨_, _, rfl⟩
  | .cyclicLinkedDir p tp, _, cache => by
      refine ⟨(p, H (utf8Encode
        (Protocol.get_descriptor proto (.cyclicLinkedDir p tp)))), cache, ?_⟩
      simp [serialNode, dir_apply, AppliedDirNode.empty, AppliedDirNode.path]
  | .dir p ds fls, hne, cache => by
      obtain ⟨rsd, cd, hd, _⟩ := serialList_ok H proto c fs ds
        (fun q hq => hne q (by
          simp only [FsNode.allPaths]
          exact List.mem_cons_of_mem _ (List.mem_append_left _ hq))) cache
      obtain ⟨rsf, cf, hf, _⟩ := serialList_ok H proto c fs fls
        (fun q hq => hne q (by
          simp only [FsNode.allPaths]
          exact List.mem_cons_of_mem _ (List.mem_append_right _ hq))) cd
      have hp : p.relative ≠ "" := hne p (by simp [FsNode.allPaths])
      refine ⟨(p, H (utf8Encode
        (Protocol.get_descriptor proto (.dirNode p rsd rsf)))), cf, ?_⟩
      simp only [serialNode, hd, hf]
      unfold dir_apply
      rw [if_neg (fun hcon => hp hcon.2.1)]
      rfl

/-- List version of `serialNode_ok`, tracking the result length. -/
theorem serialList_ok (H : HashFn) (proto : Protocol) (c : Nat)
    (fs : String → List Nat) :
    ∀ (ts : List FsNode), (∀ q ∈ allPathsList ts, q.relative ≠ "") →
      ∀ cache : Cache, ∃ rs cache',
        serialList H proto false c fs ts cache = .ok (rs, cache')
        ∧ rs.length = ts.length
  | [], _, cache => ⟨[], cache, rfl, rfl⟩
  | t :: ts, hne, cache => by
      obtain ⟨r, c₁, h₁⟩ := serialNode_ok H proto c fs t
        (fun q hq => hne q (by
          simp only [allPathsList]
          exact List.mem_append_left _ hq)) cache
      obtain ⟨rs, c₂, h₂, hlen⟩ := serialList_ok H proto c fs ts
        (fun q hq => hne q (by
          simp only [allPathsList]
          exact List.mem_append_right _ hq)) c₁
      refine ⟨r :: rs, c₂, ?_, by simp [hlen]⟩
      simp only [serialList, h₁, h₂]

end

/-- C5.  With `empty_dirs = false`, the serial digest computation fails with
the distinct "nothing to hash" error precisely when the root's children all
prune away; non-root directories that become empty are silently pruned
before the directory transform runs (they never contribute a node with the
root-relative path, so they can never trigger this error). -/
theorem claim_C5 (H : HashFn) (proto : Protocol) (c : Nat)
    (fs : String → List Nat) (p : RPath) (ds fls : List FsNode)
    (hroot : p.relative = "")
    (hsub : ∀ q ∈ allPathsList ds ++ allPathsList fls, q.relative ≠ "") :
    dirhash_serial H proto false c fs (.dir p ds fls) = .error nothingToHashError
      ↔ (pruneList ds = [] ∧ pruneList fls = []) := by
  unfold dirhash_serial
  by_cases hcy : proto.on_cyclic_link = OnCyclicLink.raise
      ∧ (FsNode.dir p ds fls).hasCyclic = true
  · rw [if_pos hcy]
    constructor
    · intro he
      exfalso
      have : symlinkRecursionError = nothingToHashError := by
        injection he
      simp [symlinkRecursionError, nothingToHashError] at this
    · intro ⟨hd, hf⟩
      exfalso
      have hc := hcy.2
      simp only [FsNode.hasCyclic, Bool.or_eq_true] at hc
      rcases hc with h | h
      · exact (pruneList_of_cyclic ds h) hd
      · exact (pruneList_of_cyclic fls h) hf
  · rw [if_neg hcy]
    have hpr : pruneRoot false (.dir p ds fls)
        = .dir p (pruneList ds) (pruneList fls) := rfl
    rw [hpr]
    by_cases hempty : pruneList ds = [] ∧ pruneList fls = []
    · rw [hempty.1, hempty.2]
      refine ⟨fun _ => ⟨rfl, rfl⟩, fun _ => ?_⟩
      simp [serialNode, serialList, dir_apply, AppliedDirNode.path,
        AppliedDirNode.empty, hroot]
    · refine ⟨fun he => ?_, fun hc => absurd hc hempty⟩
      exfalso
      obtain ⟨rsd, cd, hd, hlend⟩ := serialList_ok H proto c fs (pruneList ds)
        (fun q hq => hsub q (List.mem_append_left _ (pruneList_allPaths ds q hq))) []
      obtain ⟨rsf, cf, hf, hlenf⟩ := serialList_ok H proto c fs (pruneList fls)
        (fun q hq => hsub q (List.mem_append_right _ (pruneList_allPaths fls q hq))) cd
      have hbool : (rsd.isEmpty && rsf.isEmpty) = false := by
        by_cases hds : pruneList ds = []
        · have hfs : pruneList fls ≠ [] := fun hfs => hempty ⟨hds, hfs⟩
          have hrs : rsf ≠ [] := by
            intro h0
            apply hfs
            rw [h0] at hlenf
            exact (List.length_eq_zero.mp hlenf.symm)
          cases rsf with
          | nil => exact absurd rfl hrs
          | cons a l => simp
        · have hrs : rsd ≠ [] := by
            intro h0
            apply hds
            rw [h0] at hlend
            exact (List.length_eq_zero.mp hlend.symm)
          cases rsd with
          | nil => exact absurd rfl hrs
          | cons a l => simp
      rw [show serialNode H proto false c fs
            (.dir p (pruneList ds) (pruneList fls)) []
          = match dir_apply H proto false (.dirNode p rsd rsf) with
            | .error e => .error e
            | .ok r => .ok (r, cf) from by simp only [serialNode, hd, hf]] at he
      unfold dir_apply at he
      rw [if_neg (fun hcon => by
        have := hcon.2.2
        simp only [AppliedDirNode.empty] at this
        rw [hbool] at this
        cases this)] at he
      simp at he

/-- C5, witness: a root with one file does not raise, and an iff instance of
the root-empty characterization. -/
theorem claim_C5_witness :
    demoRootPath.relative = ""
    ∧ (∀ q ∈ allPathsList [] ++ allPathsList [FsNode.file demoFilePath],
        q.relative ≠ "")
    ∧ (dirhash_serial demoH demoProto false 4 demoFs
          (.dir demoRootPath [] [FsNode.file demoFilePath])
        = .error nothingToHashError
      ↔ (pruneList [] = [] ∧ pruneList [FsNode.file demoFilePath] = [])) :=
  ⟨rfl, by decide,
   claim_C5 demoH demoProto 4 demoFs demoRootPath [] [FsNode.file demoFilePath]
     rfl (by decide)⟩

/-- Permuted lists have equal emptiness. -/
theorem perm_isEmpty {α : Type} {l₁ l₂ : List α} (h : l₁.Perm l₂) :
    l₁.isEmpty = l₂.isEmpty := by
  have hl := h.length_eq
  cases l₁ <;> cases l₂ <;> simp_all

/-- The pruning loop is a `filterMap`. -/
theorem pruneList_eq_filterMap : ∀ ts : List FsNode,
    pruneList ts = ts.filterMap pruneNode := by
  intro ts
  induction ts with
  | nil => rfl
  | cons t ts ih =>
      simp only [pruneList, List.filterMap_cons]
      cases pruneNode t <;> simp [ih]

/-- `dir_apply` fails only with the "nothing to hash" error. -/
theorem dir_apply_error (H : HashFn) (proto : Protocol) (ed : Bool)
    (n : AppliedDirNode) (e : String) :
    dir_apply H proto ed n = .error e → e = nothingToHashError := by
  unfold dir_apply
  split
  · intro h
    injection h with h
    exact h.symm
  · intro h
    cases h

mutual

/-- The reduction fails only with the "nothing to hash" error. -/
theorem applyNode_error (H : HashFn) (proto : Protocol) (ed : Bool)
    (fh : RPath → String) :
    ∀ (t : FsNode) (e : String),
      applyNode H proto ed fh t = .error e → e = nothingToHashError
  | .file p, e, h => by simp [applyNode] at h
  | .cyclicLinkedDir p tp, e, h => by
      simp only [applyNode] at h
      exact dir_apply_error H proto ed _ e h
  | .dir p ds fls, e, h => by
      simp only [applyNode] at h
      cases hd : applyList H proto ed fh ds with
      | error e' =>
          simp only [hd] at h
          injection h with h
          subst h
          exact applyList_error H proto ed fh ds e' hd
      | ok dres =>
          simp only [hd] at h
          cases hf : applyList H proto ed fh fls with
          | error e' =>
              simp only [hf] at h
              injection h with h
              subst h
              exact applyList_error H proto ed fh fls e' hf
          | ok fres =>
              simp only [hf] at h
              exact dir_apply_error H proto ed _ e h

/-- List version of `applyNode_error`. -/
theorem applyList_error (H : HashFn) (proto : Protocol) (ed : Bool)
    (fh : RPath → String) :
    ∀ (ts : List FsNode) (e : String),
      applyList H proto ed fh ts = .error e → e = nothingToHashError
  | [], e, h => by simp [applyList] at h
  | t :: ts, e, h => by
      simp only [applyList] at h
      cases ht : applyNode H proto ed fh t with
      | error e' =>
          simp only [ht] at h
          injection h with h
          subst h
          exact applyNode_error H proto ed fh t e' ht
      | ok r =>
          simp only [ht] at h
          cases hts : applyList H proto ed fh ts with
          | error e' =>
              simp only [hts] at h
              injection h with h
              subst h
              exact applyList_error H proto ed fh ts e' hts
          | ok rs => simp only [hts] at h; cases h

end

/-- The directory descriptor is invariant under permutation of the applied
children lists. -/
theorem get_descriptor_perm (proto : Protocol) (p : RPath)
    {dirs₁ dirs₂ files₁ files₂ : List (RPath × String)}
    (hd : dirs₁.Perm dirs₂) (hf : files₁.Perm files₂) :
    proto.get_descriptor (.dirNode p dirs₁ files₁)
      = proto.get_descriptor (.dirNode p dirs₂ files₂) := by
  show entry_descriptor_separator.intercalate
      (sortedStrings ((dirs₁ ++ files₁).map (fun e =>
        Protocol.get_entry_descriptor (proto.get_entry_properties e.1 e.2))))
    = entry_descriptor_separator.intercalate
      (sortedStrings ((dirs₂ ++ files₂).map (fun e =>
        Protocol.get_entry_descriptor (proto.get_entry_properties e.1 e.2))))
  congr 1
  exact sortedStrings_perm_eq ((hd.append hf).map _)

/-- `dir_apply` is invariant under permutation of the applied children
lists. -/
theorem dir_apply_perm (H : HashFn) (proto : Protocol) (ed : Bool) (p : RPath)
    {dirs₁ dirs₂ files₁ files₂ : List (RPath × String)}
    (hd : dirs₁.Perm dirs₂) (hf : files₁.Perm files₂) :
    dir_apply H proto ed (.dirNode p dirs₁ files₁)
      = dir_apply H proto ed (.dirNode p dirs₂ files₂) := by
  unfold dir_apply
  simp only [AppliedDirNode.path, AppliedDirNode.empty]
  rw [perm_isEmpty hd, perm_isEmpty hf, get_descriptor_perm proto p hd hf]

/-- Lists of equal length have equal emptiness. -/
theorem isEmpty_of_length_eq {α β : Type} {l₁ : List α} {l₂ : List β}
    (h : l₁.length = l₂.length) : l₁.isEmpty = l₂.isEmpty := by
  cases l₁ <;> cases l₂ <;> simp_all

mutual

/-- Tree permutation is reflexive. -/
theorem treePermNode_refl : ∀ t : FsNode, TreePermNode t t
  | .file p => rfl
  | .dir p ds fs => ⟨rfl, treePermList_refl ds, treePermList_refl fs⟩
  | .cyclicLinkedDir p tp => ⟨rfl, rfl⟩

/-- List version of `treePermNode_refl`. -/
theorem treePermList_refl : ∀ ts : List FsNode, TreePermList ts ts
  | [] => rfl
  | t :: ts => ⟨[], t, ts, rfl, treePermNode_refl t, treePermList_refl ts⟩

end

/-- Permuted child lists have equal length. -/
theorem treePermList_length : ∀ ts₁ ts₂ : List FsNode,
    TreePermList ts₁ ts₂ → ts₁.length = ts₂.length
  | [], ts₂, h => by rw [h]
  | t :: ts, ts₂, h => by
      obtain ⟨pre, t', post, rfl, _, hl⟩ := h
      have := treePermList_length ts (pre ++ post) hl
      simp only [List.length_cons, List.length_append] at this ⊢
      omega

/-- Cyclic detection distributes over list concatenation. -/
theorem hasCyclicList_append : ∀ (a b : List FsNode),
    hasCyclicList (a ++ b) = (hasCyclicList a || hasCyclicList b) := by
  intro a b
  induction a with
  | nil => simp [hasCyclicList]
  | cons t ts ih => simp [hasCyclicList, ih, Bool.or_assoc]

mutual

/-- Tree-permuted trees agree on cyclic-link presence. -/
theorem hasCyclic_tperm : ∀ t₁ t₂ : FsNode, TreePermNode t₁ t₂ →
    t₁.hasCyclic = t₂.hasCyclic
  | .file _, .file _, _ => rfl
  | .file _, .dir _ _ _, h => False.elim h
  | .file _, .cyclicLinkedDir _ _, h => False.elim h
  | .dir _ _ _, .file _, h => False.elim h
  | .dir p₁ ds₁ f₁, .dir p₂ ds₂ f₂, h => by
      obtain ⟨_, hd, hf⟩ := h
      simp only [FsNode.hasCyclic]
      rw [hasCyclicList_tperm ds₁ ds₂ hd, hasCyclicList_tperm f₁ f₂ hf]
  | .dir _ _ _, .cyclicLinkedDir _ _, h => False.elim h
  | .cyclicLinkedDir _ _, .file _, h => False.elim h
  | .cyclicLinkedDir _ _, .dir _ _ _, h => False.elim h
  | .cyclicLinkedDir _ _, .cyclicLinkedDir _ _, _ => rfl

/-- List version of `hasCyclic_tperm`. -/
theorem hasCyclicList_tperm : ∀ ts₁ ts₂ : List FsNode, TreePermList ts₁ ts₂ →
    hasCyclicList ts₁ = hasCyclicList ts₂
  | [], ts₂, h => by rw [h]
  | t :: ts, ts₂, h => by
      obtain ⟨pre, t', post, rfl, hn, hl⟩ := h
      simp only [hasCyclicList, hasCyclicList_append]
      rw [hasCyclic_tperm t t' hn, hasCyclicList_tperm ts (pre ++ post) hl,
        hasCyclicList_append]
      generalize FsNode.hasCyclic t' = x
      generalize hasCyclicList pre = y
      generalize hasCyclicList post = z
      cases x <;> cases y <;> cases z <;> rfl

end

/-- Pruning distributes over list concatenation. -/
theorem pruneList_append (a b : List FsNode) :
    pruneList (a ++ b) = pruneList a ++ pruneList b := by
  rw [pruneList_eq_filterMap, pruneList_eq_filterMap, pruneList_eq_filterMap,
    List.filterMap_append]

mutual

/-- Pruning preserves tree permutation: related subtrees are both pruned
away or both kept, with related kept forms. -/
theorem pruneNode_tperm : ∀ t₁ t₂ : FsNode, TreePermNode t₁ t₂ →
    (pruneNode t₁ = none ∧ pruneNode t₂ = none)
    ∨ ∃ t₁' t₂', pruneNode t₁ = some t₁' ∧ pruneNode t₂ = some t₂'
        ∧ TreePermNode t₁' t₂'
  | .file p₁, .file p₂, h => Or.inr ⟨_, _, rfl, rfl, h⟩
  | .file _, .dir _ _ _, h => False.elim h
  | .file _, .cyclicLinkedDir _ _, h => False.elim h
  | .dir _ _ _, .file _, h => False.elim h
  | .dir p₁ ds₁ f₁, .dir p₂ ds₂ f₂, h => by
      obtain ⟨hp, hd, hf⟩ := h
      have hd' := pruneList_tperm ds₁ ds₂ hd
      have hf' := pruneList_tperm f₁ f₂ hf
      have hde : (pruneList ds₁).isEmpty = (pruneList ds₂).isEmpty :=
        isEmpty_of_length_eq (treePermList_length _ _ hd')
      have hfe : (pruneList f₁).isEmpty = (pruneList f₂).isEmpty :=
        isEmpty_of_length_eq (treePermList_length _ _ hf')
      by_cases hb : ((pruneList ds₂).isEmpty && (pruneList f₂).isEmpty) = true
      · left
        constructor
        · unfold pruneNode
          rw [if_pos (by rw [hde, hfe]; exact hb)]
        · unfold pruneNode
          rw [if_pos hb]
      · right
        refine ⟨.dir p₁ (pruneList ds₁) (pruneList f₁),
          .dir p₂ (pruneList ds₂) (pruneList f₂), ?_, ?_, hp, hd', hf'⟩
        · unfold pruneNode
          rw [if_neg (by rw [hde, hfe]; exact hb)]
        · unfold pruneNode
          rw [if_neg hb]
  | .dir _ _ _, .cyclicLinkedDir _ _, h => False.elim h
  | .cyclicLinkedDir _ _, .file _, h => False.elim h
  | .cyclicLinkedDir _ _, .dir _ _ _, h => False.elim h
  | .cyclicLinkedDir p₁ tp₁, .cyclicLinkedDir p₂ tp₂, h =>
      Or.inr ⟨_, _, rfl, rfl, h⟩

/-- List version of `pruneNode_tperm`. -/
theorem pruneList_tperm : ∀ ts₁ ts₂ : List FsNode, TreePermList ts₁ ts₂ →
    TreePermList (pruneList ts₁) (pruneList ts₂)
  | [], ts₂, h => by subst h; rfl
  | t :: ts, ts₂, h => by
      obtain ⟨pre, t', post, rfl, hn, hl⟩ := h
      have hrest := pruneList_tperm ts (pre ++ post) hl
      rcases pruneNode_tperm t t' hn with ⟨h₁, h₂⟩ | ⟨t₁', t₂', h₁, h₂, hrel⟩
      · simp only [pruneList, h₁]
        rw [pruneList_append,
          show pruneList (t' :: post) = pruneList post from by
            simp only [pruneList, h₂],
          ← pruneList_append]
        exact hrest
      · simp only [pruneList, h₁]
        rw [pruneList_append,
          show pruneList (t' :: post) = t₂' :: pruneList post from by
            simp only [pruneList, h₂]]
        refine ⟨pruneList pre, t₂', pruneList post, rfl, hrel, ?_⟩
        rw [← pruneList_append]
        exact hrest

end

/-- Root pruning preserves tree permutation. -/
theorem pruneRoot_tperm (ed : Bool) (t₁ t₂ : FsNode)
    (h : TreePermNode t₁ t₂) :
    TreePermNode (pruneRoot ed t₁) (pruneRoot ed t₂) := by
  cases ed with
  | true => exact h
  | false =>
      cases t₁ with
      | file p₁ =>
          cases t₂ with
          | file p₂ => exact h
          | dir _ _ _ => exact False.elim h
          | cyclicLinkedDir _ _ => exact False.elim h
      | cyclicLinkedDir p₁ tp₁ =>
          cases t₂ with
          | file _ => exact False.elim h
          | dir _ _ _ => exact False.elim h
          | cyclicLinkedDir p₂ tp₂ => exact h
      | dir p₁ ds₁ f₁ =>
          cases t₂ with
          | file _ => exact False.elim h
          | cyclicLinkedDir _ _ => exact False.elim h
          | dir p₂ ds₂ f₂ =>
              obtain ⟨hp, hd, hf⟩ := h
              show TreePermNode (.dir p₁ (pruneList ds₁) (pruneList f₁))
                (.dir p₂ (pruneList ds₂) (pruneList f₂))
              exact ⟨hp, pruneList_tperm ds₁ ds₂ hd, pruneList_tperm f₁ f₂ hf⟩

/-- The list reduction decomposes over concatenation (the first error wins;
on success the results concatenate). -/
theorem applyList_append (H : HashFn) (proto : Protocol) (ed : Bool)
    (fh : RPath → String) : ∀ (a b : List FsNode),
    applyList H proto ed fh (a ++ b)
      = match applyList H proto ed fh a with
        | .error e => .error e
        | .ok ra =>
            match applyList H proto ed fh b with
            | .error e => .error e
            | .ok rb => .ok (ra ++ rb) := by
  intro a b
  induction a with
  | nil =>
      simp only [List.nil_append, applyList]
      cases applyList H proto ed fh b with
      | error e => rfl
      | ok rb => rfl
  | cons t ts ih =>
      simp only [List.cons_append, applyList]
      cases ht : applyNode H proto ed fh t with
      | error e => rfl
      | ok r =>
          rw [List.append_eq, ih]
          cases applyList H proto ed fh ts with
          | error e => rfl
          | ok rs =>
              cases applyList H proto ed fh b with
              | error e => rfl
              | ok rb => rfl

mutual

/-- Reductions of tree-permuted trees are equal: the per-directory sort
cancels any (nested) child enumeration order. -/
theorem applyNode_tperm (H : HashFn) (proto : Protocol) (ed : Bool)
    (fh : RPath → String) : ∀ t₁ t₂ : FsNode, TreePermNode t₁ t₂ →
    applyNode H proto ed fh t₁ = applyNode H proto ed fh t₂
  | .file p₁, .file p₂, h => by rw [show p₁ = p₂ from h]
  | .file _, .dir _ _ _, h => False.elim h
  | .file _, .cyclicLinkedDir _ _, h => False.elim h
  | .dir _ _ _, .file _, h => False.elim h
  | .dir p₁ ds₁ f₁, .dir p₂ ds₂ f₂, h => by
      obtain ⟨hp, hd, hf⟩ := h
      subst hp
      rcases applyList_tperm H proto ed fh ds₁ ds₂ hd with
        ⟨h₁, h₂⟩ | ⟨rs₁, rs₂, h₁, h₂, hperm⟩
      · simp only [applyNode, h₁, h₂]
      · rcases applyList_tperm H proto ed fh f₁ f₂ hf with
          ⟨g₁, g₂⟩ | ⟨qs₁, qs₂, g₁, g₂, hqerm⟩
        · simp only [applyNode, h₁, h₂, g₁, g₂]
        · simp only [applyNode, h₁, h₂, g₁, g₂]
          exact dir_apply_perm H proto ed p₁ hperm hqerm
  | .dir _ _ _, .cyclicLinkedDir _ _, h => False.elim h
  | .cyclicLinkedDir _ _, .file _, h => False.elim h
  | .cyclicLinkedDir _ _, .dir _ _ _, h => False.elim h
  | .cyclicLinkedDir p₁ tp₁, .cyclicLinkedDir p₂ tp₂, h => by
      obtain ⟨hp, ht⟩ := h
      rw [hp, ht]

/-- List version of `applyNode_tperm`: both reductions fail with "nothing to
hash" or both succeed with permuted results. -/
theorem applyList_tperm (H : HashFn) (proto : Protocol) (ed : Bool)
    (fh : RPath → String) : ∀ ts₁ ts₂ : List FsNode, TreePermList ts₁ ts₂ →
    (applyList H proto ed fh ts₁ = .error nothingToHashError
      ∧ applyList H proto ed fh ts₂ = .error nothingToHashError)
    ∨ ∃ rs₁ rs₂, applyList H proto ed fh ts₁ = .ok rs₁
        ∧ applyList H proto ed fh ts₂ = .ok rs₂ ∧ rs₁.Perm rs₂
  | [], ts₂, h => by
      subst h
      exact Or.inr ⟨[], [], rfl, rfl, List.Perm.nil⟩
  | t :: ts, ts₂, h => by
      obtain ⟨pre, t', post, rfl, hn, hl⟩ := h
      have hnode := applyNode_tperm H proto ed fh t t' hn
      rcases applyList_tperm H proto ed fh ts (pre ++ post) hl with
        ⟨h₁, h₂⟩ | ⟨rs, rsp, h₁, h₂, hperm⟩
      · left
        constructor
        · cases ht : applyNode H proto ed fh t with
          | error e =>
              have he := applyNode_error H proto ed fh t e ht
              subst he
              simp only [applyList, ht]
          | ok r => simp only [applyList, ht, h₁]
        · rw [applyList_append]
          rw [applyList_append] at h₂
          cases hp : applyList H proto ed fh pre with
          | error e =>
              simp only [hp] at h₂ ⊢
              exact h₂
          | ok rp =>
              simp only [hp] at h₂ ⊢
              cases hpo : applyList H proto ed fh post with
              | error e =>
                  simp only [hpo] at h₂
                  injection h₂ with h₂
                  subst h₂
                  cases ht' : applyNode H proto ed fh t' with
                  | error e' =>
                      have he' := applyNode_error H proto ed fh t' e' ht'
                      subst he'
                      simp only [applyList, ht']
                  | ok r' => simp only [applyList, ht', hpo]
              | ok rpo =>
                  simp only [hpo] at h₂
                  cases h₂
      · rw [applyList_append] at h₂
        cases hp : applyList H proto ed fh pre with
        | error e =>
            simp only [hp] at h₂
            cases h₂
        | ok rp =>
            simp only [hp] at h₂
            cases hpo : applyList H proto ed fh post with
            | error e =>
                simp only [hpo] at h₂
                cases h₂
            | ok rpo =>
                simp only [hpo] at h₂
                injection h₂ with h₂
                cases ht : applyNode H proto ed fh t with
                | error e =>
                    have he := applyNode_error H proto ed fh t e ht
                    subst he
                    left
                    constructor
                    · simp only [applyList, ht]
                    · have ht' : applyNode H proto ed fh t'
                          = .error nothingToHashError := by
                        rw [← hnode]; exact ht
                      rw [applyList_append]
                      simp only [hp, applyList, ht']
                | ok r =>
                    right
                    have ht' : applyNode H proto ed fh t' = .ok r := by
                      rw [← hnode]; exact ht
                    refine ⟨r :: rs, rp ++ r :: rpo, ?_, ?_, ?_⟩
                    · simp only [applyList, ht, h₁]
                    · rw [applyList_append]
                      simp only [hp, applyList, ht', hpo]
                    · have hperm' : rs.Perm (rp ++ rpo) := by
                        rw [← h₂] at hperm
                        exact hperm
                      exact (hperm'.cons r).trans List.perm_middle.symm

end

/-- C2.  For every directory node, permuting the order in which its children
are presented (the scanner's enumeration order) yields an identical
directory descriptor; and for every tree, permuting any (nested)
directory's child enumeration order — the `TreePermNode` relation — yields
an identical final serial digest of the dirhash computation. -/
theorem claim_C2 (H : HashFn) (proto : Protocol) (ed : Bool) (c : Nat)
    (fs : String → List Nat) (p : RPath)
    (dirs₁ dirs₂ files₁ files₂ : List (RPath × String))
    (t₁ t₂ : FsNode)
    (hde : dirs₁.Perm dirs₂) (hfe : files₁.Perm files₂)
    (ht : TreePermNode t₁ t₂) :
    proto.get_descriptor (.dirNode p dirs₁ files₁)
        = proto.get_descriptor (.dirNode p dirs₂ files₂)
    ∧ dirhash_serial H proto ed c fs t₁ = dirhash_serial H proto ed c fs t₂ := by
  refine ⟨get_descriptor_perm proto p hde hfe, ?_⟩
  rw [dirhash_serial_eq_ref, dirhash_serial_eq_ref]
  unfold dirhashRef
  rw [hasCyclic_tperm t₁ t₂ ht]
  by_cases hcy : proto.on_cyclic_link = OnCyclicLink.raise ∧ t₂.hasCyclic = true
  · rw [if_pos hcy, if_pos hcy]
  · rw [if_neg hcy, if_neg hcy]
    rw [applyNode_tperm H proto ed (pureFile H c fs) (pruneRoot ed t₁)
      (pruneRoot ed t₂) (pruneRoot_tperm ed t₁ t₂ ht)]

/-- C2, witness: swapping two files inside a nested subdirectory changes
neither the descriptor nor the digest. -/
theorem claim_C2_witness :
    demoProto.get_descriptor (.dirNode demoRootPath [] [c2pair1, c2pair2])
        = demoProto.get_descriptor (.dirNode demoRootPath [] [c2pair2, c2pair1])
    ∧ dirhash_serial demoH demoProto false 4 demoFs wtreeA
        = dirhash_serial demoH demoProto false 4 demoFs wtreeB :=
  claim_C2 demoH demoProto false 4 demoFs demoRootPath
    [] [] [c2pair1, c2pair2] [c2pair2, c2pair1] wtreeA wtreeB
    List.Perm.nil (List.Perm.swap c2pair2 c2pair1 [])
    ⟨rfl,
     ⟨[], .dir subPath [c2t2, c2t1] [], [], rfl,
      ⟨rfl,
       ⟨[c2t2], c2t1, [], rfl, treePermNode_refl c2t1,
        ⟨[], c2t2, [], rfl, treePermNode_refl c2t2, rfl⟩⟩,
       rfl⟩,
      rfl⟩,
     rfl⟩

/-- Without the `name` property, related entries render to the same
per-child descriptor. -/
theorem get_entry_descriptor_rel (proto : Protocol)
    (hname : proto.include_name = false) {r₁ r₂ : RPath × String}
    (h : EntryRel r₁ r₂) :
    Protocol.get_entry_descriptor (proto.get_entry_properties r₁.1 r₁.2)
      = Protocol.get_entry_descriptor (proto.get_entry_properties r₂.1 r₂.2) := by
  obtain ⟨hh, hd, hs⟩ := h
  unfold Protocol.get_entry_properties
  rw [hname, hd, hs, hh]
  simp

/-- Without the `name` property, related entry lists render to the same
per-child descriptor lists. -/
theorem map_entry_descriptor_rel (proto : Protocol)
    (hname : proto.include_name = false) :
    ∀ {rs₁ rs₂ : List (RPath × String)}, List.Forall₂ EntryRel rs₁ rs₂ →
      rs₁.map (fun e =>
        Protocol.get_entry_descriptor (proto.get_entry_properties e.1 e.2))
      = rs₂.map (fun e =>
        Protocol.get_entry_descriptor (proto.get_entry_properties e.1 e.2)) := by
  intro rs₁ rs₂ h
  induction h with
  | nil => rfl
  | cons h₁ h₂ ih => simp [get_entry_descriptor_rel proto hname h₁, ih]

mutual

/-- Rename-equivalent trees agree on cyclic-link presence. -/
theorem hasCyclic_rel (fs₁ fs₂ : String → List Nat) :
    ∀ (t₁ t₂ : FsNode), renameEquivNode fs₁ fs₂ t₁ t₂ = true →
      t₁.hasCyclic = t₂.hasCyclic
  | .file _, .file _, _ => rfl
  | .file _, .dir _ _ _, h => by simp [renameEquivNode] at h
  | .file _, .cyclicLinkedDir _ _, h => by simp [renameEquivNode] at h
  | .dir _ _ _, .file _, h => by simp [renameEquivNode] at h
  | .dir p₁ ds₁ f₁, .dir p₂ ds₂ f₂, h => by
      simp only [renameEquivNode, Bool.and_eq_true] at h
      simp only [FsNode.hasCyclic]
      rw [hasCyclicList_rel fs₁ fs₂ ds₁ ds₂ h.1.2, hasCyclicList_rel fs₁ fs₂ f₁ f₂ h.2]
  | .dir _ _ _, .cyclicLinkedDir _ _, h => by simp [renameEquivNode] at h
  | .cyclicLinkedDir _ _, .file _, h => by simp [renameEquivNode] at h
  | .cyclicLinkedDir _ _, .dir _ _ _, h => by simp [renameEquivNode] at h
  | .cyclicLinkedDir _ _, .cyclicLinkedDir _ _, _ => rfl

/-- List version of `hasCyclic_rel`. -/
theorem hasCyclicList_rel (fs₁ fs₂ : String → List Nat) :
    ∀ (ts₁ ts₂ : List FsNode), renameEquivList fs₁ fs₂ ts₁ ts₂ = true →
      hasCyclicList ts₁ = hasCyclicList ts₂
  | [], [], _ => rfl
  | [], _ :: _, h => by simp [renameEquivList] at h
  | _ :: _, [], h => by simp [renameEquivList] at h
  | t₁ :: ts₁, t₂ :: ts₂, h => by
      simp only [renameEquivList, Bool.and_eq_true] at h
      simp only [hasCyclicList]
      rw [hasCyclic_rel fs₁ fs₂ t₁ t₂ h.1, hasCyclicList_rel fs₁ fs₂ ts₁ ts₂ h.2]

end

/-- Rename-equivalent child lists have equal emptiness. -/
theorem renameEquivList_isEmpty (fs₁ fs₂ : String → List Nat) :
    ∀ (ts₁ ts₂ : List FsNode), renameEquivList fs₁ fs₂ ts₁ ts₂ = true →
      ts₁.isEmpty = ts₂.isEmpty
  | [], [], _ => rfl
  | [], _ :: _, h => by simp [renameEquivList] at h
  | _ :: _, [], h => by simp [renameEquivList] at h
  | _ :: _, _ :: _, _ => rfl

mutual

/-- Pruning preserves rename equivalence: related subtrees are either both
pruned away or both kept, and the kept forms are related. -/
theorem pruneNode_rel (fs₁ fs₂ : String → List Nat) :
    ∀ (t₁ t₂ : FsNode), renameEquivNode fs₁ fs₂ t₁ t₂ = true →
      (pruneNode t₁ = none ∧ pruneNode t₂ = none)
      ∨ ∃ t₁' t₂', pruneNode t₁ = some t₁' ∧ pruneNode t₂ = some t₂'
          ∧ renameEquivNode fs₁ fs₂ t₁' t₂' = true
  | .file p₁, .file p₂, h => Or.inr ⟨_, _, rfl, rfl, h⟩
  | .file _, .dir _ _ _, h => by simp [renameEquivNode] at h
  | .file _, .cyclicLinkedDir _ _, h => by simp [renameEquivNode] at h
  | .dir _ _ _, .file _, h => by simp [renameEquivNode] at h
  | .dir p₁ ds₁ f₁, .dir p₂ ds₂ f₂, h => by
      simp only [renameEquivNode, Bool.and_eq_true] at h
      have hds := pruneList_rel fs₁ fs₂ ds₁ ds₂ h.1.2
      have hfs := pruneList_rel fs₁ fs₂ f₁ f₂ h.2
      have hde : (pruneList ds₁).isEmpty = (pruneList ds₂).isEmpty :=
        renameEquivList_isEmpty fs₁ fs₂ _ _ hds
      have hfe : (pruneList f₁).isEmpty = (pruneList f₂).isEmpty :=
        renameEquivList_isEmpty fs₁ fs₂ _ _ hfs
      by_cases hb : ((pruneList ds₂).isEmpty && (pruneList f₂).isEmpty) = true
      · left
        constructor
        · unfold pruneNode
          rw [if_pos (by rw [hde, hfe]; exact hb)]
        · unfold pruneNode
          rw [if_pos hb]
      · right
        refine ⟨.dir p₁ (pruneList ds₁) (pruneList f₁),
          .dir p₂ (pruneList ds₂) (pruneList f₂), ?_, ?_, ?_⟩
        · unfold pruneNode
          rw [if_neg (by rw [hde, hfe]; exact hb)]
        · unfold pruneNode
          rw [if_neg hb]
        · simp only [renameEquivNode, Bool.and_eq_true]
          exact ⟨⟨⟨⟨h.1.1.1.1, h.1.1.1.2⟩, h.1.1.2⟩, hds⟩, hfs⟩
  | .dir _ _ _, .cyclicLinkedDir _ _, h => by simp [renameEquivNode] at h
  | .cyclicLinkedDir _ _, .file _, h => by simp [renameEquivNode] at h
  | .cyclicLinkedDir _ _, .dir _ _ _, h => by simp [renameEquivNode] at h
  | .cyclicLinkedDir p₁ tp₁, .cyclicLinkedDir p₂ tp₂, h =>
      Or.inr ⟨_, _, rfl, rfl, h⟩

/-- List version of `pruneNode_rel`. -/
theorem pruneList_rel (fs₁ fs₂ : String → List Nat) :
    ∀ (ts₁ ts₂ : List FsNode), renameEquivList fs₁ fs₂ ts₁ ts₂ = true →
      renameEquivList fs₁ fs₂ (pruneList ts₁) (pruneList ts₂) = true
  | [], [], _ => rfl
  | [], _ :: _, h => by simp [renameEquivList] at h
  | _ :: _, [], h => by simp [renameEquivList] at h
  | t₁ :: ts₁, t₂ :: ts₂, h => by
      simp only [renameEquivList, Bool.and_eq_true] at h
      have hrest := pruneList_rel fs₁ fs₂ ts₁ ts₂ h.2
      rcases pruneNode_rel fs₁ fs₂ t₁ t₂ h.1 with ⟨h₁, h₂⟩ | ⟨t₁', t₂', h₁, h₂, hrel'⟩
      · simp only [pruneList, h₁, h₂]
        exact hrest
      · simp only [pruneList, h₁, h₂, renameEquivList, Bool.and_eq_true]
        exact ⟨hrel', hrest⟩

end

/-- Root-level pruning preserves rename equivalence. -/
theorem pruneRoot_rel (fs₁ fs₂ : String → List Nat) (ed : Bool)
    (t₁ t₂ : FsNode) (h : renameEquivNode fs₁ fs₂ t₁ t₂ = true) :
    renameEquivNode fs₁ fs₂ (pruneRoot ed t₁) (pruneRoot ed t₂) = true := by
  cases ed with
  | true => exact h
  | false =>
      cases t₁ with
      | file p₁ =>
          cases t₂ <;> first
            | exact h
            | simp [renameEquivNode] at h
      | cyclicLinkedDir p₁ tp₁ =>
          cases t₂ <;> first
            | exact h
            | simp [renameEquivNode] at h
      | dir p₁ ds₁ f₁ =>
          cases t₂ with
          | file _ => simp [renameEquivNode] at h
          | cyclicLinkedDir _ _ => simp [renameEquivNode] at h
          | dir p₂ ds₂ f₂ =>
              simp only [renameEquivNode, Bool.and_eq_true] at h
              show renameEquivNode fs₁ fs₂
                (.dir p₁ (pruneList ds₁) (pruneList f₁))
                (.dir p₂ (pruneList ds₂) (pruneList f₂)) = true
              simp only [renameEquivNode, Bool.and_eq_true]
              exact ⟨⟨⟨⟨h.1.1.1.1, h.1.1.1.2⟩, h.1.1.2⟩,
                pruneList_rel fs₁ fs₂ ds₁ ds₂ h.1.2⟩,
                pruneList_rel fs₁ fs₂ f₁ f₂ h.2⟩

mutual

/-- Without the `name` property, rename-equivalent trees reduce to results
that either both fail with "nothing to hash" or both succeed with the same
hash and the same kind flags. -/
theorem applyNode_rel (H : HashFn) (proto : Protocol) (ed : Bool) (c : Nat)
    (fs₁ fs₂ : String → List Nat) (hname : proto.include_name = false) :
    ∀ (t₁ t₂ : FsNode), renameEquivNode fs₁ fs₂ t₁ t₂ = true →
      (applyNode H proto ed (pureFile H c fs₁) t₁ = .error nothingToHashError
        ∧ applyNode H proto ed (pureFile H c fs₂) t₂ = .error nothingToHashError)
      ∨ ∃ r₁ r₂, applyNode H proto ed (pureFile H c fs₁) t₁ = .ok r₁
          ∧ applyNode H proto ed (pureFile H c fs₂) t₂ = .ok r₂
          ∧ EntryRel r₁ r₂
  | .file p₁, .file p₂, h => by
      simp only [renameEquivNode, Bool.and_eq_true, beq_iff_eq,
        decide_eq_true_eq] at h
      right
      refine ⟨(p₁, pureFile H c fs₁ p₁), (p₂, pureFile H c fs₂ p₂), rfl, rfl,
        ?_, h.1.1, h.1.2⟩
      show get_filehash H c (fs₁ p₁.real) = get_filehash H c (fs₂ p₂.real)
      rw [h.2]
  | .file _, .dir _ _ _, h => by simp [renameEquivNode] at h
  | .file _, .cyclicLinkedDir _ _, h => by simp [renameEquivNode] at h
  | .dir _ _ _, .file _, h => by simp [renameEquivNode] at h
  | .dir p₁ ds₁ f₁, .dir p₂ ds₂ f₂, h => by
      simp only [renameEquivNode, Bool.and_eq_true, beq_iff_eq] at h
      obtain ⟨⟨⟨⟨hrel, hdir⟩, hsym⟩, hds⟩, hfs⟩ := h
      rcases applyList_rel H proto ed c fs₁ fs₂ hname ds₁ ds₂ hds with
        ⟨hL1, hL2⟩ | ⟨rsd₁, rsd₂, hL1, hL2, hdF⟩
      · left
        constructor
        · simp only [applyNode, hL1]
        · simp only [applyNode, hL2]
      · rcases applyList_rel H proto ed c fs₁ fs₂ hname f₁ f₂ hfs with
          ⟨hM1, hM2⟩ | ⟨rsf₁, rsf₂, hM1, hM2, hfF⟩
        · left
          constructor
          · simp only [applyNode, hL1, hM1]
          · simp only [applyNode, hL2, hM2]
        · have hdesc : proto.get_descriptor (.dirNode p₁ rsd₁ rsf₁)
              = proto.get_descriptor (.dirNode p₂ rsd₂ rsf₂) := by
            show entry_descriptor_separator.intercalate
                (sortedStrings ((rsd₁ ++ rsf₁).map (fun e =>
                  Protocol.get_entry_descriptor
                    (proto.get_entry_properties e.1 e.2))))
              = entry_descriptor_separator.intercalate
                (sortedStrings ((rsd₂ ++ rsf₂).map (fun e =>
                  Protocol.get_entry_descriptor
                    (proto.get_entry_properties e.1 e.2))))
            rw [List.map_append, List.map_append,
              map_entry_descriptor_rel proto hname hdF,
              map_entry_descriptor_rel proto hname hfF]
          have hde : rsd₁.isEmpty = rsd₂.isEmpty :=
            isEmpty_of_length_eq hdF.length_eq
          have hfe : rsf₁.isEmpty = rsf₂.isEmpty :=
            isEmpty_of_length_eq hfF.length_eq
          by_cases hC : ed = false ∧ p₂.relative = ""
              ∧ (rsd₂.isEmpty && rsf₂.isEmpty) = true
          · left
            constructor
            · simp only [applyNode, hL1, hM1]
              unfold dir_apply
              rw [if_pos (by
                refine ⟨hC.1, ?_, ?_⟩
                · show p₁.relative = ""
                  rw [hrel]; exact hC.2.1
                · show (rsd₁.isEmpty && rsf₁.isEmpty) = true
                  rw [hde, hfe]; exact hC.2.2)]
            · simp only [applyNode, hL2, hM2]
              unfold dir_apply
              rw [if_pos (by exact ⟨hC.1, hC.2.1, hC.2.2⟩)]
          · right
            refine ⟨(p₁, H (utf8Encode
                (proto.get_descriptor (.dirNode p₁ rsd₁ rsf₁)))),
              (p₂, H (utf8Encode
                (proto.get_descriptor (.dirNode p₂ rsd₂ rsf₂)))), ?_, ?_, ?_⟩
            · simp only [applyNode, hL1, hM1]
              unfold dir_apply
              rw [if_neg (fun hcon => hC ⟨hcon.1, by
                rw [← hrel]; exact hcon.2.1, by
                rw [← hde, ← hfe]; exact hcon.2.2⟩)]
              rfl
            · simp only [applyNode, hL2, hM2]
              unfold dir_apply
              rw [if_neg (fun hcon => hC ⟨hcon.1, hcon.2.1, hcon.2.2⟩)]
              rfl
            · exact ⟨by simp [hdesc], hdir, hsym⟩
  | .dir _ _ _, .cyclicLinkedDir _ _, h => by simp [renameEquivNode] at h
  | .cyclicLinkedDir _ _, .file _, h => by simp [renameEquivNode] at h
  | .cyclicLinkedDir _ _, .dir _ _ _, h => by simp [renameEquivNode] at h
  | .cyclicLinkedDir p₁ tp₁, .cyclicLinkedDir p₂ tp₂, h => by
      simp only [renameEquivNode, Bool.and_eq_true, decide_eq_true_eq] at h
      obtain ⟨rfl, rfl⟩ := h
      cases hda : applyNode H proto ed (pureFile H c fs₁)
          (.cyclicLinkedDir p₁ tp₁) with
      | error e =>
          left
          have he := applyNode_error H proto ed _ _ e hda
          subst he
          have hda₂ : applyNode H proto ed (pureFile H c fs₂)
              (.cyclicLinkedDir p₁ tp₁) = .error nothingToHashError := hda
          exact ⟨rfl, hda₂⟩
      | ok r =>
          right
          have hda₂ : applyNode H proto ed (pureFile H c fs₂)
              (.cyclicLinkedDir p₁ tp₁) = .ok r := hda
          exact ⟨r, r, rfl, hda₂, rfl, rfl, rfl⟩

/-- List version of `applyNode_rel`. -/
theorem applyList_rel (H : HashFn) (proto : Protocol) (ed : Bool) (c : Nat)
    (fs₁ fs₂ : String → List Nat) (hname : proto.include_name = false) :
    ∀ (ts₁ ts₂ : List FsNode), renameEquivList fs₁ fs₂ ts₁ ts₂ = true →
      (applyList H proto ed (pureFile H c fs₁) ts₁ = .error nothingToHashError
        ∧ applyList H proto ed (pureFile H c fs₂) ts₂ = .error nothingToHashError)
      ∨ ∃ rs₁ rs₂, applyList H proto ed (pureFile H c fs₁) ts₁ = .ok rs₁
          ∧ applyList H proto ed (pureFile H c fs₂) ts₂ = .ok rs₂
          ∧ List.Forall₂ EntryRel rs₁ rs₂
  | [], [], _ => Or.inr ⟨[], [], rfl, rfl, List.Forall₂.nil⟩
  | [], _ :: _, h => by simp [renameEquivList] at h
  | _ :: _, [], h => by simp [renameEquivList] at h
  | t₁ :: ts₁, t₂ :: ts₂, h => by
      simp only [renameEquivList, Bool.and_eq_true] at h
      rcases applyNode_rel H proto ed c fs₁ fs₂ hname t₁ t₂ h.1 with
        ⟨h₁, h₂⟩ | ⟨r₁, r₂, h₁, h₂, hr⟩
      · left
        constructor
        · simp only [applyList, h₁]
        · simp only [applyList, h₂]
      · rcases applyList_rel H proto ed c fs₁ fs₂ hname ts₁ ts₂ h.2 with
          ⟨g₁, g₂⟩ | ⟨rs₁, rs₂, g₁, g₂, gr⟩
        · left
          constructor
          · simp only [applyList, h₁, g₁]
          · simp only [applyList, h₂, g₂]
        · right
          refine ⟨r₁ :: rs₁, r₂ :: rs₂, ?_, ?_, List.Forall₂.cons hr gr⟩
          · simp only [applyList, h₁, g₁]
          · simp only [applyList, h₂, g₂]

end

/-- C7 (amended).  Renaming files (or any entries) without changing content,
link flags or relative structure never changes the serial digest when `name`
is not among the entry properties; in particular two runs on trees identical
up to a rename under protocol `{data}` produce equal digests.  (The converse
direction of the original claim — that with `name` selected a rename always
changes the digest — fails for colliding user-supplied hash factories, see
the counterexample.) -/
theorem claim_C7 (H : HashFn) (proto : Protocol) (ed : Bool) (c : Nat)
    (fs₁ fs₂ : String → List Nat) (t₁ t₂ : FsNode)
    (hrel : renameEquivNode fs₁ fs₂ t₁ t₂ = true)
    (hname : proto.include_name = false) :
    dirhash_serial H proto ed c fs₁ t₁ = dirhash_serial H proto ed c fs₂ t₂ := by
  rw [dirhash_serial_eq_ref, dirhash_serial_eq_ref]
  unfold dirhashRef
  rw [hasCyclic_rel fs₁ fs₂ t₁ t₂ hrel]
  by_cases hcy : proto.on_cyclic_link = OnCyclicLink.raise ∧ t₂.hasCyclic = true
  · rw [if_pos hcy, if_pos hcy]
  · rw [if_neg hcy, if_neg hcy]
    rcases applyNode_rel H proto ed c fs₁ fs₂ hname
        (pruneRoot ed t₁) (pruneRoot ed t₂)
        (pruneRoot_rel fs₁ fs₂ ed t₁ t₂ hrel) with
      ⟨h₁, h₂⟩ | ⟨r₁, r₂, h₁, h₂, hr⟩
    · rw [h₁, h₂]
    · rw [h₁, h₂]
      show Except.ok r₁.2 = Except.ok r₂.2
      rw [hr.1]

/-- C7, counterexample to the claim as stated: with a (legal) constant hash
factory and the default `{name, data}` properties, renaming `a.txt` to
`b.txt` (content unchanged, structure unchanged — the two trees are
rename-equivalent and their file names differ) leaves the digest unchanged,
although the claim asserts the digest changes whenever `name` is selected. -/
theorem claim_C7_counterexample :
    demoProto.include_name = true
    ∧ renameEquivNode constFs constFs treeA7 treeB7 = true
    ∧ (FsNode.filePaths treeA7).map (fun p => p.name)
        ≠ (FsNode.filePaths treeB7).map (fun p => p.name)
    ∧ dirhash_serial constH demoProto false 4 constFs treeA7
        = dirhash_serial constH demoProto false 4 constFs treeB7 :=
  ⟨rfl, by decide, by decide, rfl⟩

/-- C7, witness for the amended theorem: the same rename under protocol
`{data}` gives equal digests for any hash model. -/
theorem claim_C7_witness :
    renameEquivNode constFs constFs treeA7 treeB7 = true
    ∧ dataProto.include_name = false
    ∧ dirhash_serial demoH dataProto false 4 constFs treeA7
        = dirhash_serial demoH dataProto false 4 constFs treeB7 :=
  ⟨by decide, rfl,
   claim_C7 demoH dataProto false 4 constFs constFs treeA7 treeB7
     (by decide) rfl⟩

mutual

/-- Pruning preserves the kind-flag invariant. -/
theorem pruneNode_kind : ∀ (t t' : FsNode), pruneNode t = some t' →
    kindConsistent t = true → kindConsistent t' = true
  | .file p, t', h, hk => by
      injection h with h
      subst h
      exact hk
  | .cyclicLinkedDir p tp, t', h, hk => by
      injection h with h
      subst h
      exact hk
  | .dir p ds fs, t', h, hk => by
      simp only [kindConsistent, Bool.and_eq_true] at hk
      unfold pruneNode at h
      by_cases hb : ((pruneList ds).isEmpty && (pruneList fs).isEmpty) = true
      · rw [if_pos hb] at h
        cases h
      · rw [if_neg hb] at h
        injection h with h
        subst h
        simp only [kindConsistent, Bool.and_eq_true]
        exact ⟨⟨hk.1.1, pruneList_kind ds hk.1.2⟩, pruneList_kind fs hk.2⟩

/-- List version of `pruneNode_kind`. -/
theorem pruneList_kind : ∀ (ts : List FsNode),
    kindConsistentList ts = true → kindConsistentList (pruneList ts) = true
  | [], _ => rfl
  | t :: ts, hk => by
      simp only [kindConsistentList, Bool.and_eq_true] at hk
      cases hp : pruneNode t with
      | none =>
          simp only [pruneList, hp]
          exact pruneList_kind ts hk.2
      | some t' =>
          simp only [pruneList, hp, kindConsistentList, Bool.and_eq_true]
          exact ⟨pruneNode_kind t t' hp hk.1, pruneList_kind ts hk.2⟩

end

/-- Root pruning preserves the kind-flag invariant. -/
theorem pruneRoot_kind (ed : Bool) (t : FsNode)
    (hk : kindConsistent t = true) :
    kindConsistent (pruneRoot ed t) = true := by
  cases ed with
  | true => exact hk
  | false =>
      cases t with
      | file p => exact hk
      | cyclicLinkedDir p tp => exact hk
      | dir p ds fs =>
          simp only [kindConsistent, Bool.and_eq_true] at hk
          show kindConsistent (.dir p (pruneList ds) (pruneList fs)) = true
          simp only [kindConsistent, Bool.and_eq_true]
          exact ⟨⟨hk.1.1, pruneList_kind ds hk.1.2⟩, pruneList_kind fs hk.2⟩

mutual

/-- Under the kind-flag invariant, filtering the leaf enumeration down to
files yields exactly the file paths the reduction hashes. -/
theorem leaves_filter : ∀ (t : FsNode), kindConsistent t = true →
    (t.leaves).filter (fun p => p.is_file) = t.filePaths
  | .file p, hk => by
      simp only [kindConsistent] at hk
      simp [FsNode.leaves, FsNode.filePaths, List.filter, RPath.is_file, hk]
  | .cyclicLinkedDir p tp, hk => by
      simp only [kindConsistent] at hk
      simp [FsNode.leaves, FsNode.filePaths, List.filter, RPath.is_file, hk]
  | .dir p ds fs, hk => by
      simp only [kindConsistent, Bool.and_eq_true] at hk
      by_cases hb : (ds.isEmpty && fs.isEmpty) = true
      · have hb' : ds.isEmpty = true ∧ fs.isEmpty = true := by
          simpa [Bool.and_eq_true] using hb
        have hds : ds = [] := List.isEmpty_iff.mp hb'.1
        have hfs : fs = [] := List.isEmpty_iff.mp hb'.2
        subst hds
        subst hfs
        simp [FsNode.leaves, FsNode.filePaths, List.filter, RPath.is_file,
          hk.1.1, filePathsList]
      · show (if (ds.isEmpty && fs.isEmpty) = true then [p]
              else leavesList ds ++ leavesList fs).filter (fun p => p.is_file)
            = FsNode.filePaths (.dir p ds fs)
        rw [if_neg hb, List.filter_append, leavesList_filter ds hk.1.2,
          leavesList_filter fs hk.2]
        rfl

/-- List version of `leaves_filter`. -/
theorem leavesList_filter : ∀ (ts : List FsNode),
    kindConsistentList ts = true →
      (leavesList ts).filter (fun p => p.is_file) = filePathsList ts
  | [], _ => rfl
  | t :: ts, hk => by
      simp only [kindConsistentList, Bool.and_eq_true] at hk
      simp only [leavesList, filePathsList, List.filter_append]
      rw [leaves_filter t hk.1, leavesList_filter ts hk.2]

end

/-- C9 (amended).  `included_paths` lists, in order of relative path, the
leaves of the same filtered tree the digest computation consumes —
directories (empty directories and cyclic links) suffixed with the path
separator and the `"."` self marker — and the listed files are exactly the
paths through which the reduction reads file data: transforms that agree on
them produce identical results.  (The output is ordered by the leaf's
relative path; the appended suffix can break string-sortedness of the
rendered list, see the counterexample.) -/
theorem claim_C9 (H : HashFn) (proto : Protocol) (ed : Bool) (t : FsNode)
    (fh₁ fh₂ : RPath → String) (hk : kindConsistent t = true)
    (hagree : ∀ p ∈ (pruneRoot ed t).filePaths, fh₁ p = fh₂ p) :
    included_paths proto ed t
      = (if proto.on_cyclic_link = OnCyclicLink.raise ∧ t.hasCyclic then
          .error symlinkRecursionError
        else .ok ((leafpathsSorted (pruneRoot ed t)).map (fun p =>
          if p.is_file then p.relative else joinCurdir p.relative)))
    ∧ ((pruneRoot ed t).leaves).filter (fun p => p.is_file)
        = (pruneRoot ed t).filePaths
    ∧ applyNode H proto ed fh₁ (pruneRoot ed t)
        = applyNode H proto ed fh₂ (pruneRoot ed t) :=
  ⟨rfl, leaves_filter _ (pruneRoot_kind ed t hk),
   applyNode_congr H proto ed fh₁ fh₂ _ hagree⟩

/-- C9, counterexample to the claim as stated: with an empty directory `a`
and a sibling file `a b`, the listing is `["a/.", "a b"]` — the `"/."`
suffix makes the first entry sort after the second in code-point order, so
the returned sequence is not sorted. -/
theorem claim_C9_counterexample :
    included_paths demoProto true c9root = .ok ["a/.", "a b"]
    ∧ stringLe "a/." "a b" = false :=
  ⟨rfl, by decide⟩

/-- C9, witness on the one-file tree with equal file transforms. -/
theorem claim_C9_witness :
    kindConsistent demoTree = true
    ∧ (∀ p ∈ (pruneRoot false demoTree).filePaths,
        (fun _ : RPath => "x") p = (fun _ : RPath => "x") p)
    ∧ (included_paths demoProto false demoTree
        = (if demoProto.on_cyclic_link = OnCyclicLink.raise
              ∧ demoTree.hasCyclic then
            .error symlinkRecursionError
          else .ok ((leafpathsSorted (pruneRoot false demoTree)).map (fun p =>
            if p.is_file then p.relative else joinCurdir p.relative)))
      ∧ ((pruneRoot false demoTree).leaves).filter (fun p => p.is_file)
          = (pruneRoot false demoTree).filePaths
      ∧ applyNode demoH demoProto false (fun _ : RPath => "x")
            (pruneRoot false demoTree)
          = applyNode demoH demoProto false (fun _ : RPath => "x")
            (pruneRoot false demoTree)) :=
  ⟨by decide, by decide,
   claim_C9 demoH demoProto false demoTree (fun _ => "x") (fun _ => "x")
     (by decide) (by decide)⟩

end Dirhash
